import Mathlib

/-!
Shallow embedding of the `triematch` trie store (src/src/Trie.js).

The JavaScript store consists of `Node` objects (a child map `socket`
from single characters to nodes, plus optional terminal fields `name`
and `value`) and a `Trie` holding the root child map `rootSocket` and a
flat key-to-node index `table`.

Modelling decisions, in order of appearance:
* A JavaScript object used as a map is embedded as an insertion-ordered
  association list: `Object.keys` enumerates keys in insertion order for
  the string keys used here, assignment of a fresh key appends, and
  assignment of an existing key keeps its position.  The spec's data
  model likewise describes child maps as insertion-ordered.
* `node.name` and `node.value` are optional fields (`delete` removes
  them); they are embedded as `Option`.  Truthiness tests on `name`
  become `Option.isSome` (the stored name is the full nonempty key, so
  the falsy empty string never occurs as a stored name).
* The JS `table` aliases the tree nodes.  Because `set` writes the value
  into both the node and (through the node reference) the table, and
  `remove` clears both in the same operation, the table is embedded as a
  key-to-value association list; where `remove` reads `end.socket`
  through the alias, the embedding re-resolves the node by walking the
  tree from the root, which agrees with the alias on every state the
  public API can build (this is the index-consistency invariant proved
  below).
* `match` returns `List (Option V)`: the loop pushes `node.value`, which
  in JS would be `undefined` (here `none`) if a terminal node lacked a
  value; on API-reachable states every pushed value is `some _`.
* The numeric `count` argument of `match` is embedded as `Option Int`;
  the JS truthiness test `count && result.length >= count` becomes
  `c != 0 && result.length >= c`.
-/

/-- Modelled from the spec: the `Node` class lives in `src/Node.js`, which is
not among the provided sources.  Following the spec's data model (section 3)
and its uses in `Trie.js`, a node carries a child map `socket` from single
characters to child nodes, and optional terminal fields `name` (the full
stored key) and `value` (the payload); a fresh `new Node()` has an empty
socket and no terminal fields. -/
inductive Node (V : Type) : Type where
  | mk (socket : List (Char × Node V)) (name : Option String) (value : Option V) : Node V

/-- Child map of a node. -/
def Node.socket {V : Type} : Node V → List (Char × Node V)
  | .mk s _ _ => s

/-- Terminal key label of a node (`undefined` embedded as `none`). -/
def Node.name {V : Type} : Node V → Option String
  | .mk _ n _ => n

/-- Terminal payload of a node (`undefined` embedded as `none`). -/
def Node.value {V : Type} : Node V → Option V
  | .mk _ _ v => v

/-- Lookup of `socket[c]` in a child map. -/
def lookupSocket {V : Type} : List (Char × Node V) → Char → Option (Node V)
  | [], _ => none
  | (c, n) :: r, q => if c = q then some n else lookupSocket r q

/-- Assignment `socket[c] = nd` on a child map: replaces the entry in place
when the key is present, otherwise appends it (JS object insertion order). -/
def updateSocket {V : Type} : List (Char × Node V) → Char → Node V → List (Char × Node V)
  | [], c, nd => [(c, nd)]
  | (c', n') :: r, c, nd => if c' = c then (c, nd) :: r else (c', n') :: updateSocket r c nd

/-- Deletion `delete socket[c]` on a child map. -/
def eraseSocket {V : Type} : List (Char × Node V) → Char → List (Char × Node V)
  | [], _ => []
  | (c', n') :: r, c => if c' = c then r else (c', n') :: eraseSocket r c

/-- Lookup `table[k]` in the flat index (value stored for the key). -/
def lookupTable {V : Type} : List (String × V) → String → Option V
  | [], _ => none
  | (k, v) :: r, q => if k = q then some v else lookupTable r q

/-- Assignment `table[k] = v` on the flat index. -/
def updateTable {V : Type} : List (String × V) → String → V → List (String × V)
  | [], k, v => [(k, v)]
  | (k', v') :: r, k, v => if k' = k then (k, v) :: r else (k', v') :: updateTable r k v

/-- Deletion `delete table[k]` on the flat index. -/
def eraseTable {V : Type} : List (String × V) → String → List (String × V)
  | [], _ => []
  | (k', v') :: r, k => if k' = k then r else (k', v') :: eraseTable r k

/-- The `Trie` store state: root child map `rootSocket` and flat index
`table` (src/src/Trie.js, constructor). -/
structure Trie (V : Type) : Type where
  rootSocket : List (Char × Node V)
  table : List (String × V)

/-- A freshly constructed store (`new Trie()`): both maps empty. -/
def Trie.empty {V : Type} : Trie V := ⟨[], []⟩

/-- The phantom node `new Node({ socket: this.rootSocket })` that `set`,
`remove` and `_getClosestNode` build around the root child map. -/
def Trie.rootNode {V : Type} (t : Trie V) : Node V := Node.mk t.rootSocket none none

/-- Character-by-character descent used by `_getClosestNode` and by the
walking loops of `set` and `remove`: follow one child edge per character,
returning `none` as soon as an edge is missing. -/
def walkNode {V : Type} : Node V → List Char → Option (Node V)
  | node, [] => some node
  | node, c :: cs =>
    match lookupSocket node.socket c with
    | none => none
    | some child => walkNode child cs

/-- The method `_getClosestNode(query)` (src/src/Trie.js lines 221-235). -/
def Trie.getClosestNode {V : Type} (t : Trie V) (query : String) : Option (Node V) :=
  walkNode t.rootNode query.data

/-- The method `get(query)` (src/src/Trie.js lines 24-27): O(1) lookup in
the flat index; `node && node.value` is `none` exactly when the key is
absent. -/
def Trie.get {V : Type} (t : Trie V) (query : String) : Option V :=
  lookupTable t.table query

/-- The creating walk of `set` (src/src/Trie.js lines 116-127): follow each
character, creating `new Node()` for missing edges, then mark the final node
terminal with the full key and the value. -/
def insertNode {V : Type} : Node V → List Char → String → V → Node V
  | node, [], key, v => Node.mk node.socket (some key) (some v)
  | node, c :: cs, key, v =>
    let child := (lookupSocket node.socket c).getD (Node.mk [] none none)
    Node.mk (updateSocket node.socket c (insertNode child cs key v)) node.name node.value

/-- The method `set(key, value)` (src/src/Trie.js lines 111-132): empty
(falsy) keys are ignored; otherwise the tree gains the key's path and the
index entry `table[key]` is written in the same operation. -/
def Trie.set {V : Type} (t : Trie V) (key : String) (value : V) : Trie V :=
  if key = "" then t
  else
    { rootSocket := (insertNode t.rootNode key.data key value).socket
      table := updateTable t.table key value }

/-- Clearing walk for the first deletion case (src/src/Trie.js lines
147-152): `delete end.name; delete end.value` performed through the table
alias, embedded as a functional update of the node at the key's path. -/
def clearNode {V : Type} : Node V → List Char → Node V
  | node, [] => Node.mk node.socket none none
  | node, c :: cs =>
    match lookupSocket node.socket c with
    | none => node
    | some child => Node.mk (updateSocket node.socket c (clearNode child cs)) node.name node.value

/-- The anchor-searching re-walk of `remove` (src/src/Trie.js lines
154-169): walk the key again from the root, remembering the position of the
most recent node that is terminal or has at least two children.  Returns
`none` for the early `return` when a child edge is missing, otherwise
`some point` where `point` is the recorded anchor position, if any. -/
def findPoint {V : Type} : Node V → List Char → Nat → Option Nat → Option (Option Nat)
  | _, [], _, point => some point
  | node, c :: cs, pos, point =>
    match lookupSocket node.socket c with
    | none => none
    | some child =>
      findPoint child cs (pos + 1)
        (if node.name.isSome || node.socket.length ≥ 2 then some pos else point)

/-- The splice `delete point.node.socket[point.char]` (src/src/Trie.js line
176): remove the child edge for character `cs[i]` from the node at depth `i`
on the key's path. -/
def deleteEdgeAt {V : Type} : Node V → List Char → Nat → Node V
  | node, c :: _, 0 => Node.mk (eraseSocket node.socket c) node.name node.value
  | node, c :: cs, i + 1 =>
    match lookupSocket node.socket c with
    | none => node
    | some child => Node.mk (updateSocket node.socket c (deleteEdgeAt child cs i)) node.name node.value
  | node, [], _ => node

/-- The method `reset()` (src/src/Trie.js lines 184-187): reinitialize both
maps to empty. -/
def Trie.reset {V : Type} (_t : Trie V) : Trie V := ⟨[], []⟩

/-- The method `remove(query)` (src/src/Trie.js lines 138-178).  Absent keys
are a no-op.  If the terminal node still has children, only its terminal
fields and index entry are cleared (case A).  Otherwise the anchor re-walk
runs: with no anchor the whole store is reset, else the single edge past the
anchor is deleted, and the index entry is removed (case B).  The JS code
reads the terminal node through the `table` alias; the embedding re-resolves
it by `walkNode`, which coincides with the alias on API-reachable states
(the `none` fallback is unreachable there). -/
def Trie.remove {V : Type} (t : Trie V) (query : String) : Trie V :=
  match lookupTable t.table query with
  | none => t
  | some _ =>
    match walkNode t.rootNode query.data with
    | none => t
    | some endNode =>
      if endNode.socket.length ≠ 0 then
        { rootSocket := (clearNode t.rootNode query.data).socket
          table := eraseTable t.table query }
      else
        match findPoint t.rootNode query.data 0 none with
        | none => t
        | some none => t.reset
        | some (some i) =>
          { rootSocket := (deleteEdgeAt t.rootNode query.data i).socket
            table := eraseTable t.table query }

mutual
/-- Number of nodes of a subtree (termination measure for the match loop). -/
def Node.size {V : Type} : Node V → Nat
  | .mk s _ _ => 1 + sizeL s

/-- Total node count of a child map. -/
def sizeL {V : Type} : List (Char × Node V) → Nat
  | [] => 0
  | (_, n) :: r => Node.size n + sizeL r
end

/-- Total node count of a pending stack. -/
def sumSizes {V : Type} (l : List (Node V)) : Nat := (l.map Node.size).sum

/-- The loop guard `count && result.length >= count` of `match`
(src/src/Trie.js lines 71-74): a provided nonzero count that the result
length has reached. -/
def countReached {V : Type} (count : Option Int) (result : List (Option V)) : Bool :=
  match count with
  | none => false
  | some c => c != 0 && (result.length : Int) ≥ c

theorem size_socket {V : Type} (n : Node V) : Node.size n = 1 + sizeL n.socket := by
  cases n with
  | mk s nm v => rfl

theorem sizeL_eq {V : Type} (l : List (Char × Node V)) :
    sizeL l = (l.map (fun p => Node.size p.2)).sum := by
  induction l with
  | nil => rfl
  | cons h t ih => cases h; simp [sizeL, ih]

/-- The iterative explicit-stack traversal of `match` (src/src/Trie.js lines
70-97).  Each iteration: stop when the count is reached; append the value of
a terminal node; with two or more children push all but the first onto the
pending stack and descend into the first; with one child descend; with none
pop the next pending node, stopping when the stack is empty. -/
def matchLoop {V : Type} (count : Option Int) :
    Node V → List (Node V) → List (Option V) → List (Option V)
  | node, points, result =>
    if countReached count result then result
    else
      match hs : node.socket with
      | [] =>
        let result' := if node.name.isSome then result ++ [node.value] else result
        match points with
        | [] => result'
        | next :: rest => matchLoop count next rest result'
      | (_, child) :: restS =>
        let result' := if node.name.isSome then result ++ [node.value] else result
        if restS.length + 1 ≥ 2 then
          matchLoop count child ((restS.map (fun p => p.2)).reverse ++ points) result'
        else
          matchLoop count child points result'
termination_by node points _ => Node.size node + sumSizes points
decreasing_by
  · have h1 := size_socket node
    rw [hs] at h1
    simp [sumSizes, sizeL] at h1 ⊢
    omega
  · have h1 := size_socket node
    rw [hs] at h1
    simp [sumSizes, sizeL, sizeL_eq, List.sum_reverse, Function.comp_def] at h1 ⊢
    omega
  · have h1 := size_socket node
    rw [hs] at h1
    simp [sumSizes, sizeL, sizeL_eq, List.sum_reverse, Function.comp_def] at h1 ⊢
    omega

/-- The method `match(query, count)` (src/src/Trie.js lines 56-101): empty
(falsy) queries yield an empty result, as does a query whose path is absent;
otherwise the explicit-stack traversal runs from the closest node.  Named
`match'` because `match` is a Lean keyword. -/
def Trie.match' {V : Type} (t : Trie V) (query : String) (count : Option Int) :
    List (Option V) :=
  if query = "" then []
  else
    match t.getClosestNode query with
    | none => []
    | some closestNode => matchLoop count closestNode [] []

mutual
/-- Terminal entries of a subtree in natural depth-first order: triples of
path from this node, stored name, stored value. -/
def Node.entryList {V : Type} : Node V → List (List Char × Option String × Option V)
  | .mk s nm v => (if nm.isSome then [([], nm, v)] else []) ++ entryListL s

/-- Terminal entries contributed by a child map, child by child in order. -/
def entryListL {V : Type} : List (Char × Node V) → List (List Char × Option String × Option V)
  | [] => []
  | (c, n) :: r => (Node.entryList n).map (fun e => (c :: e.1, e.2)) ++ entryListL r
end

mutual
/-- Values of a subtree in the order produced by the match loop: own value
first, then the first child's values, then the remaining children in
reverse order (they are pushed onto the stack first-to-last and popped
last-to-first). -/
def Node.dfs {V : Type} : Node V → List (Option V)
  | .mk s nm v =>
    (if nm.isSome then [v] else []) ++
    match s with
    | [] => []
    | (_, c0) :: r => Node.dfs c0 ++ dfsRevL r

/-- Values of a list of children visited in reverse order. -/
def dfsRevL {V : Type} : List (Char × Node V) → List (Option V)
  | [] => []
  | (_, n) :: r => dfsRevL r ++ Node.dfs n
end

mutual
/-- Structural well-formedness of a JS-object child map: no duplicate edge
characters, recursively.  Association lists can express duplicates that a
JS object cannot; this predicate rules them out. -/
def Node.wsock {V : Type} : Node V → Bool
  | .mk s _ _ => decide ((s.map Prod.fst).Nodup) && wsockL s

/-- Structural well-formedness of every node of a child map. -/
def wsockL {V : Type} : List (Char × Node V) → Bool
  | [] => true
  | (_, n) :: r => Node.wsock n && wsockL r
end

mutual
/-- Liveness of a subtree: every child subtree contains a terminal entry
(the pruning-exactness invariant: no dead chains are left behind). -/
def Node.liveb {V : Type} : Node V → Bool
  | .mk s _ _ => liveL s

/-- Liveness of every child of a child map. -/
def liveL {V : Type} : List (Char × Node V) → Bool
  | [] => true
  | (_, n) :: r => !(Node.entryList n).isEmpty && Node.liveb n && liveL r
end

/-- Boolean prefix test on character lists (used to state which stored keys
a query matches). -/
def pref : List Char → List Char → Bool
  | [], _ => true
  | _ :: _, [] => false
  | c :: p, d :: k => c == d && pref p k

/-- Well-formed store states: duplicate-free child maps, no dead subtrees,
every terminal entry labelled with its own full path and carrying a value,
the flat index in bijection with the terminal entries, and duplicate-free
index keys.  Every state reachable by the public API satisfies this (proved
below); theorems about a single operation take it as a hypothesis. -/
def Trie.WF {V : Type} (t : Trie V) : Prop :=
  t.rootNode.wsock = true ∧
  t.rootNode.liveb = true ∧
  (∀ e ∈ t.rootNode.entryList, e.2.1 = some (String.mk e.1) ∧ (e.2.2).isSome = true) ∧
  (t.rootNode.entryList.map (fun e => (String.mk e.1, e.2.2))).Perm
    (t.table.map (fun kv => (kv.1, some kv.2))) ∧
  (t.table.map Prod.fst).Nodup

/-- Mutating public operations of the store (queries such as `get`, `match`
and the enumeration helpers read the state without changing it, so a
sequence of public operations changes the state exactly through these). -/
inductive TrieOp (V : Type) : Type where
  | set (key : String) (value : V) : TrieOp V
  | remove (key : String) : TrieOp V
  | reset : TrieOp V

/-- Apply one mutating operation. -/
def Trie.applyOp {V : Type} (t : Trie V) : TrieOp V → Trie V
  | .set k v => t.set k v
  | .remove k => t.remove k
  | .reset => t.reset

/-- Apply a sequence of mutating operations in order. -/
def Trie.applyOps {V : Type} (t : Trie V) : List (TrieOp V) → Trie V
  | [] => t
  | op :: ops => (t.applyOp op).applyOps ops

/-- Apply a sequence of `set` calls in order. -/
def Trie.applySets {V : Type} (t : Trie V) : List (String × V) → Trie V
  | [] => t
  | (k, v) :: ops => (t.set k v).applySets ops

instance {V : Type} [DecidableEq V] (t : Trie V) : Decidable t.WF := by
  unfold Trie.WF
  infer_instance

theorem lookupSocket_update {V : Type} (s : List (Char × Node V)) (c c' : Char) (nd : Node V) :
    lookupSocket (updateSocket s c nd) c' = if c = c' then some nd else lookupSocket s c' := by
  induction s with
  | nil =>
    simp only [updateSocket, lookupSocket]
  | cons hd r ih =>
    obtain ⟨d, n⟩ := hd
    simp only [updateSocket]
    by_cases hdc : d = c
    · subst hdc
      rw [if_pos rfl]
      simp only [lookupSocket]
      by_cases h : d = c' <;> simp [h]
    · rw [if_neg hdc]
      simp only [lookupSocket]
      by_cases h : d = c'
      · subst h
        rw [if_pos rfl, if_pos rfl]
        have hcd : ¬ c = d := fun hx => hdc hx.symm
        rw [if_neg hcd]
      · rw [if_neg h, if_neg h, ih]

theorem mem_of_lookupSocket {V : Type} {s : List (Char × Node V)} {c : Char} {nd : Node V}
    (h : lookupSocket s c = some nd) : (c, nd) ∈ s := by
  induction s with
  | nil => simp [lookupSocket] at h
  | cons hd r ih =>
    obtain ⟨d, n⟩ := hd
    by_cases hdc : d = c
    · subst hdc
      simp [lookupSocket] at h
      simp [h]
    · simp [lookupSocket, hdc] at h
      exact List.mem_cons_of_mem _ (ih h)

theorem lookupSocket_isSome_iff {V : Type} (s : List (Char × Node V)) (c : Char) :
    (lookupSocket s c).isSome = true ↔ c ∈ s.map Prod.fst := by
  induction s with
  | nil => simp [lookupSocket]
  | cons hd r ih =>
    obtain ⟨d, n⟩ := hd
    by_cases hdc : d = c
    · subst hdc
      simp [lookupSocket]
    · simp [lookupSocket, hdc, ih]
      exact fun h => absurd h.symm hdc

theorem lookupSocket_of_mem {V : Type} {s : List (Char × Node V)} {c : Char} {nd : Node V}
    (hmem : (c, nd) ∈ s) (hnd : (s.map Prod.fst).Nodup) : lookupSocket s c = some nd := by
  induction s with
  | nil => simp at hmem
  | cons hd r ih =>
    obtain ⟨d, n⟩ := hd
    simp only [List.map_cons, List.nodup_cons] at hnd
    rcases List.mem_cons.mp hmem with heq | hmem'
    · cases heq
      simp [lookupSocket]
    · have hdc : d ≠ c := by
        intro hdc
        subst hdc
        exact hnd.1 (List.mem_map.mpr ⟨(d, nd), hmem', rfl⟩)
      simp [lookupSocket, hdc]
      exact ih hmem' hnd.2

theorem eraseSocket_sublist {V : Type} (s : List (Char × Node V)) (c : Char) :
    (eraseSocket s c).Sublist s := by
  induction s with
  | nil => simp [eraseSocket]
  | cons hd r ih =>
    obtain ⟨d, n⟩ := hd
    by_cases hdc : d = c
    · subst hdc
      simpa [eraseSocket] using List.sublist_cons_self (d, n) r
    · simpa [eraseSocket, hdc] using ih.cons₂ (d, n)

theorem lookupSocket_erase {V : Type} (s : List (Char × Node V)) (c c' : Char)
    (hnd : (s.map Prod.fst).Nodup) :
    lookupSocket (eraseSocket s c) c' = if c = c' then none else lookupSocket s c' := by
  induction s with
  | nil => simp [eraseSocket, lookupSocket]
  | cons hd r ih =>
    obtain ⟨d, n⟩ := hd
    simp only [List.map_cons, List.nodup_cons] at hnd
    by_cases hdc : d = c
    · subst hdc
      by_cases h : d = c'
      · subst h
        simp [eraseSocket]
        cases hl : lookupSocket r d with
        | none => rfl
        | some nd =>
          exact absurd (List.mem_map.mpr ⟨(d, nd), mem_of_lookupSocket hl, rfl⟩) hnd.1
      · simp [eraseSocket, lookupSocket, h]
    · by_cases h : d = c'
      · subst h
        have : ¬ c = d := fun hx => hdc hx.symm
        simp [eraseSocket, lookupSocket, hdc, this]
      · simp [eraseSocket, lookupSocket, hdc, h, ih hnd.2]

theorem keys_updateSocket {V : Type} (s : List (Char × Node V)) (c : Char) (nd : Node V) :
    (updateSocket s c nd).map Prod.fst =
      if c ∈ s.map Prod.fst then s.map Prod.fst else s.map Prod.fst ++ [c] := by
  induction s with
  | nil => simp [updateSocket]
  | cons hd r ih =>
    obtain ⟨d, n⟩ := hd
    by_cases hdc : d = c
    · subst hdc
      simp [updateSocket]
    · have hcd : ¬ c = d := fun h => hdc h.symm
      by_cases hc : c ∈ r.map Prod.fst <;>
        simp [updateSocket, hdc, hcd, hc, ih]

theorem mem_updateSocket {V : Type} {s : List (Char × Node V)} {c : Char} {nd : Node V}
    {p : Char × Node V} (hmem : p ∈ updateSocket s c nd) : p = (c, nd) ∨ p ∈ s := by
  induction s with
  | nil => simpa [updateSocket] using hmem
  | cons hd r ih =>
    obtain ⟨d, n⟩ := hd
    by_cases hdc : d = c
    · subst hdc
      rcases List.mem_cons.mp (by simpa [updateSocket] using hmem) with h | h
      · exact Or.inl h
      · exact Or.inr (List.mem_cons_of_mem _ h)
    · rcases List.mem_cons.mp (by simpa [updateSocket, hdc] using hmem) with h | h
      · exact Or.inr (by simp [h])
      · rcases ih h with h' | h'
        · exact Or.inl h'
        · exact Or.inr (List.mem_cons_of_mem _ h')

theorem lookupTable_update {V : Type} (tbl : List (String × V)) (k k' : String) (v : V) :
    lookupTable (updateTable tbl k v) k' = if k = k' then some v else lookupTable tbl k' := by
  induction tbl with
  | nil =>
    simp only [updateTable, lookupTable]
  | cons hd r ih =>
    obtain ⟨d, w⟩ := hd
    simp only [updateTable]
    by_cases hdk : d = k
    · subst hdk
      rw [if_pos rfl]
      simp only [lookupTable]
      by_cases h : d = k' <;> simp [h]
    · rw [if_neg hdk]
      simp only [lookupTable]
      by_cases h : d = k'
      · subst h
        rw [if_pos rfl, if_pos rfl]
        have hkd : ¬ k = d := fun hx => hdk hx.symm
        rw [if_neg hkd]
      · rw [if_neg h, if_neg h, ih]

theorem mem_of_lookupTable {V : Type} {tbl : List (String × V)} {k : String} {v : V}
    (h : lookupTable tbl k = some v) : (k, v) ∈ tbl := by
  induction tbl with
  | nil => simp [lookupTable] at h
  | cons hd r ih =>
    obtain ⟨d, w⟩ := hd
    by_cases hdk : d = k
    · subst hdk
      simp [lookupTable] at h
      simp [h]
    · simp [lookupTable, hdk] at h
      exact List.mem_cons_of_mem _ (ih h)

theorem lookupTable_isSome_iff {V : Type} (tbl : List (String × V)) (k : String) :
    (lookupTable tbl k).isSome = true ↔ k ∈ tbl.map Prod.fst := by
  induction tbl with
  | nil => simp [lookupTable]
  | cons hd r ih =>
    obtain ⟨d, w⟩ := hd
    by_cases hdk : d = k
    · subst hdk
      simp [lookupTable]
    · simp [lookupTable, hdk, ih]
      exact fun h => absurd h.symm hdk

theorem lookupTable_of_mem {V : Type} {tbl : List (String × V)} {k : String} {v : V}
    (hmem : (k, v) ∈ tbl) (hnd : (tbl.map Prod.fst).Nodup) : lookupTable tbl k = some v := by
  induction tbl with
  | nil => simp at hmem
  | cons hd r ih =>
    obtain ⟨d, w⟩ := hd
    simp only [List.map_cons, List.nodup_cons] at hnd
    rcases List.mem_cons.mp hmem with heq | hmem'
    · cases heq
      simp [lookupTable]
    · have hdk : d ≠ k := by
        intro hdk
        subst hdk
        exact hnd.1 (List.mem_map.mpr ⟨(d, v), hmem', rfl⟩)
      simp [lookupTable, hdk]
      exact ih hmem' hnd.2

theorem eraseTable_sublist {V : Type} (tbl : List (String × V)) (k : String) :
    (eraseTable tbl k).Sublist tbl := by
  induction tbl with
  | nil => simp [eraseTable]
  | cons hd r ih =>
    obtain ⟨d, w⟩ := hd
    by_cases hdk : d = k
    · subst hdk
      simpa [eraseTable] using List.sublist_cons_self (d, w) r
    · simpa [eraseTable, hdk] using ih.cons₂ (d, w)

theorem eraseTable_eq_filter {V : Type} (tbl : List (String × V)) (k : String)
    (hnd : (tbl.map Prod.fst).Nodup) :
    eraseTable tbl k = tbl.filter (fun kv => kv.1 ≠ k) := by
  induction tbl with
  | nil => simp [eraseTable]
  | cons hd r ih =>
    obtain ⟨d, w⟩ := hd
    simp only [List.map_cons, List.nodup_cons] at hnd
    by_cases hdk : d = k
    · subst hdk
      have hself : List.filter (fun kv : String × V => !decide (kv.1 = d)) r = r := by
        apply List.filter_eq_self.mpr
        intro kv hkv
        simp only [Bool.not_eq_true', decide_eq_false_iff_not]
        intro h
        exact hnd.1 (List.mem_map.mpr ⟨kv, hkv, h⟩)
      simp [eraseTable, hself]
    · simp [eraseTable, hdk, ih hnd.2, List.filter_cons]

theorem lookupTable_erase {V : Type} (tbl : List (String × V)) (k k' : String)
    (hnd : (tbl.map Prod.fst).Nodup) :
    lookupTable (eraseTable tbl k) k' = if k = k' then none else lookupTable tbl k' := by
  induction tbl with
  | nil => simp [eraseTable, lookupTable]
  | cons hd r ih =>
    obtain ⟨d, w⟩ := hd
    simp only [List.map_cons, List.nodup_cons] at hnd
    by_cases hdk : d = k
    · subst hdk
      by_cases h : d = k'
      · subst h
        simp [eraseTable]
        cases hl : lookupTable r d with
        | none => rfl
        | some v =>
          exact absurd (List.mem_map.mpr ⟨(d, v), mem_of_lookupTable hl, rfl⟩) hnd.1
      · simp [eraseTable, lookupTable, h]
    · by_cases h : d = k'
      · subst h
        have : ¬ k = d := fun hx => hdk hx.symm
        simp [eraseTable, lookupTable, hdk, this]
      · simp [eraseTable, lookupTable, hdk, h, ih hnd.2]

theorem keys_updateTable {V : Type} (tbl : List (String × V)) (k : String) (v : V) :
    (updateTable tbl k v).map Prod.fst =
      if k ∈ tbl.map Prod.fst then tbl.map Prod.fst else tbl.map Prod.fst ++ [k] := by
  induction tbl with
  | nil => simp [updateTable]
  | cons hd r ih =>
    obtain ⟨d, w⟩ := hd
    by_cases hdk : d = k
    · subst hdk
      simp [updateTable]
    · have hkd : ¬ k = d := fun h => hdk h.symm
      by_cases hk : k ∈ r.map Prod.fst <;>
        simp [updateTable, hdk, hkd, hk, ih]

theorem nodup_keys_updateTable {V : Type} (tbl : List (String × V)) (k : String) (v : V)
    (hnd : (tbl.map Prod.fst).Nodup) : ((updateTable tbl k v).map Prod.fst).Nodup := by
  rw [keys_updateTable]
  by_cases hk : k ∈ tbl.map Prod.fst
  · simpa [hk] using hnd
  · rw [if_neg hk]
    refine List.Nodup.append hnd (List.nodup_singleton k) ?_
    intro x hx hx'
    simp only [List.mem_singleton] at hx'
    subst hx'
    exact hk hx

theorem updateTable_perm {V : Type} (tbl : List (String × V)) (k : String) (v : V)
    (hnd : (tbl.map Prod.fst).Nodup) :
    (updateTable tbl k v).Perm ((k, v) :: eraseTable tbl k) := by
  induction tbl with
  | nil => simp [updateTable, eraseTable]
  | cons hd r ih =>
    obtain ⟨d, w⟩ := hd
    simp only [List.map_cons, List.nodup_cons] at hnd
    by_cases hdk : d = k
    · subst hdk
      simp [updateTable, eraseTable]
    · simp only [updateTable, eraseTable, if_neg hdk]
      exact ((ih hnd.2).cons (d, w)).trans (List.Perm.swap (k, v) (d, w) (eraseTable r k))

theorem pref_iff (p k : List Char) : pref p k = true ↔ ∃ s, k = p ++ s := by
  induction p generalizing k with
  | nil => simp [pref]
  | cons c p' ih =>
    cases k with
    | nil => simp [pref]
    | cons d k' =>
      simp only [pref, Bool.and_eq_true, beq_iff_eq, ih, List.cons_append, List.cons.injEq]
      constructor
      · rintro ⟨rfl, s, rfl⟩
        exact ⟨s, rfl, rfl⟩
      · rintro ⟨s, rfl, rfl⟩
        exact ⟨rfl, s, rfl⟩

theorem pref_append (p s : List Char) : pref p (p ++ s) = true :=
  (pref_iff p (p ++ s)).mpr ⟨s, rfl⟩

theorem pref_refl (p : List Char) : pref p p = true := by
  simpa using pref_append p []

theorem pref_length_le {p k : List Char} (h : pref p k = true) : p.length ≤ k.length := by
  obtain ⟨s, rfl⟩ := (pref_iff p k).mp h
  simp

theorem pref_antisymm {p k : List Char} (h1 : pref p k = true) (h2 : k.length ≤ p.length) :
    p = k := by
  obtain ⟨s, rfl⟩ := (pref_iff p k).mp h1
  simp at h2
  subst h2
  simp

theorem pref_trans {p q r : List Char} (h1 : pref p q = true) (h2 : pref q r = true) :
    pref p r = true := by
  obtain ⟨s, rfl⟩ := (pref_iff p q).mp h1
  obtain ⟨u, rfl⟩ := (pref_iff _ r).mp h2
  simpa [List.append_assoc] using pref_append p (s ++ u)

theorem pref_snoc_inj {x p : List Char} {a b : Char}
    (ha : pref (x ++ [a]) p = true) (hb : pref (x ++ [b]) p = true) : a = b := by
  obtain ⟨s, rfl⟩ := (pref_iff _ p).mp ha
  obtain ⟨u, hu⟩ := (pref_iff _ _).mp hb
  rw [List.append_assoc, List.append_assoc] at hu
  have h2 := List.append_cancel_left hu
  simp at h2
  exact h2.1

theorem pref_take {p : List Char} (i : Nat) : pref (p.take i) p = true := by
  have h := pref_append (p.take i) (p.drop i)
  rwa [List.take_append_drop] at h

theorem walk_append {V : Type} (n : Node V) (p q : List Char) :
    walkNode n (p ++ q) = (walkNode n p).bind (fun m => walkNode m q) := by
  induction p generalizing n with
  | nil => simp [walkNode]
  | cons c p' ih =>
    simp only [List.cons_append, walkNode]
    cases lookupSocket n.socket c with
    | none => rfl
    | some child => exact ih child

theorem walkNode_cons {V : Type} (n : Node V) (c : Char) (cs : List Char) :
    walkNode n (c :: cs) = (lookupSocket n.socket c).bind (fun child => walkNode child cs) := by
  cases hl : lookupSocket n.socket c <;> simp [walkNode, hl]

theorem socket_mk {V : Type} (s : List (Char × Node V)) (nm : Option String) (v : Option V) :
    (Node.mk s nm v).socket = s := rfl

theorem name_mk {V : Type} (s : List (Char × Node V)) (nm : Option String) (v : Option V) :
    (Node.mk s nm v).name = nm := rfl

theorem value_mk {V : Type} (s : List (Char × Node V)) (nm : Option String) (v : Option V) :
    (Node.mk s nm v).value = v := rfl

theorem walk_insert_pre {V : Type} (n : Node V) (p rest : List Char) (k : String) (v : V) :
    walkNode (insertNode n (p ++ rest) k v) p =
      some (insertNode ((walkNode n p).getD (Node.mk [] none none)) rest k v) := by
  induction p generalizing n with
  | nil => simp [walkNode]
  | cons c p' ih =>
    simp only [List.cons_append, insertNode, walkNode_cons, socket_mk, List.append_eq]
    rw [lookupSocket_update, if_pos rfl, Option.some_bind, ih]
    cases hl : lookupSocket n.socket c with
    | none =>
      simp only [hl, Option.getD_none, Option.none_bind]
      cases p' with
      | nil => simp [walkNode]
      | cons d p'' => simp [walkNode_cons, socket_mk, lookupSocket]
    | some child => simp [hl]

theorem walk_insert_off {V : Type} (n : Node V) (ks p : List Char) (k : String) (v : V)
    (hp : pref p ks = false) :
    walkNode (insertNode n ks k v) p = walkNode n p := by
  induction p generalizing n ks with
  | nil => simp [pref] at hp
  | cons c p' ih =>
    cases ks with
    | nil =>
      simp [insertNode, walkNode_cons, socket_mk]
    | cons d ks' =>
      simp only [pref] at hp
      by_cases hcd : d = c
      · subst hcd
        have hp' : pref p' ks' = false := by
          cases hpk : pref p' ks' with
          | false => rfl
          | true => simp [hpk] at hp
        simp only [insertNode, walkNode_cons, socket_mk]
        rw [lookupSocket_update, if_pos rfl, Option.some_bind, ih _ _ hp']
        cases hl : lookupSocket n.socket d with
        | none =>
          simp only [hl, Option.getD_none, Option.none_bind]
          cases p' with
          | nil => simp [pref] at hp'
          | cons e p'' => simp [walkNode_cons, socket_mk, lookupSocket]
        | some child => simp [hl]
      · have hne : ¬ d = c := hcd
        simp only [insertNode, walkNode_cons, socket_mk]
        rw [lookupSocket_update, if_neg hne]

theorem entryList_mk {V : Type} (s : List (Char × Node V)) (nm : Option String) (v : Option V) :
    (Node.mk s nm v).entryList = (if nm.isSome then [([], nm, v)] else []) ++ entryListL s := by
  simp [Node.entryList]

theorem entryListL_append {V : Type} (l₁ l₂ : List (Char × Node V)) :
    entryListL (l₁ ++ l₂) = entryListL l₁ ++ entryListL l₂ := by
  induction l₁ with
  | nil => simp [entryListL]
  | cons hd r ih =>
    obtain ⟨c, n⟩ := hd
    simp [entryListL, ih]

theorem mem_entryListL {V : Type} (s : List (Char × Node V)) (p : List Char)
    (nm : Option String) (v : Option V) :
    (p, nm, v) ∈ entryListL s ↔
      ∃ c nd q, (c, nd) ∈ s ∧ p = c :: q ∧ (q, nm, v) ∈ nd.entryList := by
  induction s with
  | nil => simp [entryListL]
  | cons hd r ih =>
    obtain ⟨c, n⟩ := hd
    simp only [entryListL, List.mem_append, List.mem_map, ih]
    constructor
    · rintro (⟨e, he, heq⟩ | ⟨c', nd, q, hmem, hp, hq⟩)
      · obtain ⟨q, nm', v'⟩ := e
        simp only [Prod.mk.injEq] at heq
        obtain ⟨hp, hnm, hv⟩ := heq
        subst hnm
        exact ⟨c, n, q, by simp, hp.symm, by simpa [hv] using he⟩
      · exact ⟨c', nd, q, List.mem_cons_of_mem _ hmem, hp, hq⟩
    · rintro ⟨c', nd, q, hmem, hp, hq⟩
      rcases List.mem_cons.mp hmem with heq | hmem'
      · injection heq with hc hn
        subst hc
        subst hn
        exact Or.inl ⟨(q, nm, v), hq, by simp [hp]⟩
      · exact Or.inr ⟨c', nd, q, hmem', hp, hq⟩

theorem entryListL_path_ne_nil {V : Type} {s : List (Char × Node V)} {p : List Char}
    {nm : Option String} {v : Option V} (h : (p, nm, v) ∈ entryListL s) : p ≠ [] := by
  obtain ⟨c, nd, q, _, hp, _⟩ := (mem_entryListL s p nm v).mp h
  simp [hp]

theorem wsockL_iff {V : Type} (s : List (Char × Node V)) :
    wsockL s = true ↔ ∀ pr ∈ s, pr.2.wsock = true := by
  induction s with
  | nil => simp [wsockL]
  | cons hd r ih =>
    obtain ⟨c, n⟩ := hd
    simp only [wsockL, Bool.and_eq_true, ih, List.mem_cons]
    constructor
    · rintro ⟨h1, h2⟩ pr hpr
      rcases hpr with rfl | hpr
      · exact h1
      · exact h2 pr hpr
    · intro h
      exact ⟨h (c, n) (Or.inl rfl), fun pr hpr => h pr (Or.inr hpr)⟩

theorem wsock_iff {V : Type} (n : Node V) :
    n.wsock = true ↔ (n.socket.map Prod.fst).Nodup ∧ ∀ pr ∈ n.socket, pr.2.wsock = true := by
  cases n with
  | mk s nm v =>
    simp [Node.wsock, socket_mk, wsockL_iff]

theorem wsock_of_walk {V : Type} {n m : Node V} {p : List Char}
    (hw : n.wsock = true) (hwalk : walkNode n p = some m) : m.wsock = true := by
  induction p generalizing n with
  | nil => simp [walkNode] at hwalk; cases hwalk; exact hw
  | cons c cs ih =>
    rw [walkNode_cons] at hwalk
    cases hl : lookupSocket n.socket c with
    | none => simp [hl] at hwalk
    | some child =>
      simp only [hl, Option.some_bind] at hwalk
      exact ih (((wsock_iff n).mp hw).2 _ (mem_of_lookupSocket hl)) hwalk

theorem entry_of_walk {V : Type} {n m : Node V} {p : List Char}
    (hwalk : walkNode n p = some m) (hterm : m.name.isSome = true) :
    (p, m.name, m.value) ∈ n.entryList := by
  induction p generalizing n with
  | nil =>
    simp only [walkNode] at hwalk
    cases hwalk
    cases m with
    | mk s nm v => simp [entryList_mk, name_mk, value_mk] at hterm ⊢; simp [hterm]
  | cons c cs ih =>
    rw [walkNode_cons] at hwalk
    cases hl : lookupSocket n.socket c with
    | none => simp [hl] at hwalk
    | some child =>
      simp only [hl, Option.some_bind] at hwalk
      cases n with
      | mk s nm v =>
        rw [entryList_mk]
        refine List.mem_append_right _ ?_
        rw [mem_entryListL]
        exact ⟨c, child, cs, mem_of_lookupSocket (by simpa [socket_mk] using hl), rfl, ih hwalk⟩

theorem walk_of_entry {V : Type} {n : Node V} {p : List Char} {nm : Option String}
    {v : Option V} (hw : n.wsock = true) (hmem : (p, nm, v) ∈ n.entryList) :
    ∃ m, walkNode n p = some m ∧ m.name = nm ∧ m.value = v ∧ nm.isSome = true := by
  induction p generalizing n with
  | nil =>
    cases n with
    | mk s nm0 v0 =>
      rw [entryList_mk] at hmem
      rcases List.mem_append.mp hmem with hin | hin
      · by_cases h0 : nm0.isSome
        · simp [h0] at hin
          obtain ⟨hnm, hv⟩ := hin
          exact ⟨Node.mk s nm0 v0, by simp [walkNode], by simp [name_mk, hnm],
            by simp [value_mk, hv], by simp [hnm, h0]⟩
        · simp [h0] at hin
      · exact absurd rfl (entryListL_path_ne_nil hin)
  | cons c cs ih =>
    cases n with
    | mk s nm0 v0 =>
      rw [entryList_mk] at hmem
      rcases List.mem_append.mp hmem with hin | hin
      · by_cases h0 : nm0.isSome <;> simp [h0] at hin
      · obtain ⟨c', nd, q, hmem', hp, hq⟩ := (mem_entryListL s _ nm v).mp hin
        injection hp with hc hq'
        subst hc
        subst hq'
        have hnd : (s.map Prod.fst).Nodup := ((wsock_iff _).mp hw).1
        have hlook : lookupSocket s c = some nd :=
          lookupSocket_of_mem hmem' (by simpa [socket_mk] using hnd)
        have hwc : nd.wsock = true := ((wsock_iff _).mp hw).2 _ hmem'
        obtain ⟨m, hm, h1, h2, h3⟩ := ih hwc hq
        exact ⟨m, by rw [walkNode_cons]; simp [socket_mk, hlook, hm], h1, h2, h3⟩

theorem entryListL_filter_key {V : Type} (s : List (Char × Node V)) (c : Char) (cs : List Char)
    (hnd : (s.map Prod.fst).Nodup) :
    (entryListL s).filter (fun e => pref (c :: cs) e.1) =
      (match lookupSocket s c with
       | none => []
       | some child => (child.entryList.filter (fun e => pref cs e.1)).map
           (fun e => (c :: e.1, e.2))) := by
  induction s with
  | nil => simp [entryListL, lookupSocket]
  | cons hd r ih =>
    obtain ⟨d, nd⟩ := hd
    simp only [List.map_cons, List.nodup_cons] at hnd
    rw [show entryListL ((d, nd) :: r) =
        (Node.entryList nd).map (fun e => (d :: e.1, e.2)) ++ entryListL r from rfl]
    rw [List.filter_append]
    by_cases hdc : d = c
    · subst hdc
      have hr : (entryListL r).filter (fun e => pref (d :: cs) e.1) = [] := by
        apply List.filter_eq_nil_iff.mpr
        rintro ⟨p, nm, v⟩ he
        obtain ⟨c', nd', q, hmem', hp, _⟩ := (mem_entryListL r p nm v).mp he
        subst hp
        simp only [pref, Bool.and_eq_true, beq_iff_eq, not_and]
        intro hdc'
        subst hdc'
        exact absurd (List.mem_map.mpr ⟨(d, nd'), hmem', rfl⟩) hnd.1
      rw [hr, List.append_nil, List.filter_map]
      have hfun : ((fun e : List Char × Option String × Option V => pref (d :: cs) e.1) ∘
          (fun e : List Char × Option String × Option V => (d :: e.1, e.2))) =
          (fun e : List Char × Option String × Option V => pref cs e.1) := by
        funext e
        simp [Function.comp, pref]
      rw [hfun]
      simp [lookupSocket]
    · have hblock : ((Node.entryList nd).map (fun e => (d :: e.1, e.2))).filter
          (fun e => pref (c :: cs) e.1) = [] := by
        apply List.filter_eq_nil_iff.mpr
        rintro ⟨p, nm, v⟩ he
        obtain ⟨e, _, heq⟩ := List.mem_map.mp he
        injection heq with h1 h2
        subst h1
        simp only [pref, Bool.and_eq_true, beq_iff_eq, not_and]
        intro hcd
        exact absurd hcd.symm hdc
      rw [hblock, List.nil_append, ih hnd.2]
      simp [lookupSocket, hdc]

theorem entry_filter_walk {V : Type} {n m : Node V} (q : List Char)
    (hw : n.wsock = true) (hwalk : walkNode n q = some m) :
    n.entryList.filter (fun e => pref q e.1) =
      m.entryList.map (fun e => (q ++ e.1, e.2)) := by
  induction q generalizing n with
  | nil =>
    simp only [walkNode] at hwalk
    cases hwalk
    simp [pref, List.filter_eq_self]
  | cons c cs ih =>
    rw [walkNode_cons] at hwalk
    cases hl : lookupSocket n.socket c with
    | none => simp [hl] at hwalk
    | some child =>
      simp only [hl, Option.some_bind] at hwalk
      cases n with
      | mk s nm0 v0 =>
        have hnds : (s.map Prod.fst).Nodup := by
          have := ((wsock_iff (Node.mk s nm0 v0)).mp hw).1
          simpa [socket_mk] using this
        have hl' : lookupSocket s c = some child := by simpa [socket_mk] using hl
        have hwc : child.wsock = true :=
          ((wsock_iff _).mp hw).2 _ (mem_of_lookupSocket hl')
        rw [entryList_mk, List.filter_append]
        have hhead : (if nm0.isSome = true then [(([] : List Char), nm0, v0)] else []).filter
            (fun e => pref (c :: cs) e.1) = [] := by
          by_cases h0 : nm0.isSome <;> simp [h0, pref]
        rw [hhead, List.nil_append, entryListL_filter_key s c cs hnds, hl']
        simp only [ih hwc hwalk, List.map_map]
        simp [Function.comp_def]

theorem updateSocket_of_not_mem {V : Type} {s : List (Char × Node V)} {c : Char}
    (hl : lookupSocket s c = none) (nd : Node V) : updateSocket s c nd = s ++ [(c, nd)] := by
  induction s with
  | nil => simp [updateSocket]
  | cons hd r ih =>
    obtain ⟨d, n⟩ := hd
    by_cases hdc : d = c
    · subst hdc
      simp [lookupSocket] at hl
    · simp only [lookupSocket, if_neg hdc] at hl
      simp [updateSocket, hdc, ih hl]

theorem eraseSocket_of_not_mem {V : Type} {s : List (Char × Node V)} {c : Char}
    (hl : lookupSocket s c = none) : eraseSocket s c = s := by
  induction s with
  | nil => simp [eraseSocket]
  | cons hd r ih =>
    obtain ⟨d, n⟩ := hd
    by_cases hdc : d = c
    · subst hdc
      simp [lookupSocket] at hl
    · simp only [lookupSocket, if_neg hdc] at hl
      simp [eraseSocket, hdc, ih hl]

theorem lookup_decomp {V : Type} {s : List (Char × Node V)} {c : Char} {child : Node V}
    (hnd : (s.map Prod.fst).Nodup) (hl : lookupSocket s c = some child) :
    ∃ pre post, s = pre ++ (c, child) :: post ∧
      c ∉ pre.map Prod.fst ∧ c ∉ post.map Prod.fst ∧
      (∀ nd, updateSocket s c nd = pre ++ (c, nd) :: post) ∧
      eraseSocket s c = pre ++ post := by
  induction s with
  | nil => simp [lookupSocket] at hl
  | cons hd r ih =>
    obtain ⟨d, n⟩ := hd
    simp only [List.map_cons, List.nodup_cons] at hnd
    by_cases hdc : d = c
    · subst hdc
      simp only [lookupSocket, if_pos rfl] at hl
      cases hl
      refine ⟨[], r, by simp, by simp, ?_, ?_, ?_⟩
      · simpa using hnd.1
      · intro nd
        simp [updateSocket]
      · simp [eraseSocket]
    · simp only [lookupSocket, if_neg hdc] at hl
      obtain ⟨pre, post, hs, hpre, hpost, hupd, hers⟩ := ih hnd.2 hl
      refine ⟨(d, n) :: pre, post, by simp [hs], ?_, hpost, ?_, ?_⟩
      · simp only [List.map_cons, List.mem_cons, not_or]
        exact ⟨fun h => hdc h.symm, hpre⟩
      · intro nd
        simp [updateSocket, hdc, hupd nd]
      · simp [eraseSocket, hdc, hers]

theorem entryListL_no_key {V : Type} {s : List (Char × Node V)} {c : Char}
    (hc : c ∉ s.map Prod.fst)
    (p : List Char) (nm : Option String) (v : Option V)
    (hmem : (p, nm, v) ∈ entryListL s) : p.head? ≠ some c := by
  obtain ⟨c', nd, q, hmem', hp, _⟩ := (mem_entryListL s p nm v).mp hmem
  subst hp
  simp only [List.head?_cons, ne_eq, Option.some.injEq]
  intro h
  subst h
  exact hc (List.mem_map.mpr ⟨(c', nd), hmem', rfl⟩)

theorem entryListL_filter_ne_of_no_key {V : Type} {s : List (Char × Node V)} {c : Char}
    (hc : c ∉ s.map Prod.fst) (cs : List Char) :
    (entryListL s).filter (fun e => decide (e.1 ≠ c :: cs)) = entryListL s := by
  apply List.filter_eq_self.mpr
  rintro ⟨p, nm', v'⟩ hmem
  have hhd := entryListL_no_key hc p nm' v' hmem
  simp only [decide_eq_true_eq, ne_eq]
  intro h
  subst h
  simp at hhd

theorem entryListL_filter_not_pref_of_no_key {V : Type} {s : List (Char × Node V)} {c : Char}
    (hc : c ∉ s.map Prod.fst) (cs : List Char) :
    (entryListL s).filter (fun e => !(pref (c :: cs) e.1)) = entryListL s := by
  apply List.filter_eq_self.mpr
  rintro ⟨p, nm', v'⟩ hmem
  have hhd := entryListL_no_key hc p nm' v' hmem
  simp only [Bool.not_eq_true']
  cases p with
  | nil => simp [pref]
  | cons d q =>
    simp only [List.head?_cons, ne_eq, Option.some.injEq] at hhd
    simp only [pref, Bool.and_eq_false_iff]
    left
    simp only [beq_eq_false_iff_ne, ne_eq]
    exact fun h => hhd h.symm

theorem entries_clear {V : Type} (ks : List Char) (n : Node V) (hw : n.wsock = true) :
    (clearNode n ks).entryList = n.entryList.filter (fun e => decide (e.1 ≠ ks)) := by
  induction ks generalizing n with
  | nil =>
    cases n with
    | mk s nm v =>
      rw [show clearNode (Node.mk s nm v) [] = Node.mk s none none from rfl]
      rw [entryList_mk, entryList_mk, List.filter_append]
      have h1 : (if (none : Option String).isSome = true
          then [(([] : List Char), (none : Option String), (none : Option V))] else []) = [] := by
        simp
      have h2 : (if nm.isSome = true then [(([] : List Char), nm, v)] else []).filter
          (fun e => decide (e.1 ≠ [])) = [] := by
        by_cases h0 : nm.isSome <;> simp [h0]
      have h3 : (entryListL s).filter (fun e => decide (e.1 ≠ [])) = entryListL s := by
        apply List.filter_eq_self.mpr
        rintro ⟨p, nm', v'⟩ hmem
        simpa using entryListL_path_ne_nil hmem
      rw [h1, h2, h3]
  | cons c cs ih =>
    cases n with
    | mk s nm v =>
      have hnds : (s.map Prod.fst).Nodup := by
        have := ((wsock_iff (Node.mk s nm v)).mp hw).1
        simpa [socket_mk] using this
      cases hl : lookupSocket s c with
      | none =>
        rw [show clearNode (Node.mk s nm v) (c :: cs) =
            (match lookupSocket s c with
             | none => Node.mk s nm v
             | some child =>
               Node.mk (updateSocket s c (clearNode child cs)) nm v) from rfl, hl]
        have hc : c ∉ s.map Prod.fst := by
          rw [← lookupSocket_isSome_iff]
          simp [hl]
        rw [entryList_mk, List.filter_append]
        have h2 : (if nm.isSome = true then [(([] : List Char), nm, v)] else []).filter
            (fun e => decide (e.1 ≠ c :: cs)) =
            (if nm.isSome = true then [(([] : List Char), nm, v)] else []) := by
          by_cases h0 : nm.isSome <;> simp [h0]
        rw [h2, entryListL_filter_ne_of_no_key hc]
      | some child =>
        have hwc : child.wsock = true :=
          ((wsock_iff (Node.mk s nm v)).mp hw).2 _
            (by simpa [socket_mk] using mem_of_lookupSocket hl)
        obtain ⟨pre, post, hs, hpre, hpost, hupd, _⟩ := lookup_decomp hnds hl
        rw [show clearNode (Node.mk s nm v) (c :: cs) =
            (match lookupSocket s c with
             | none => Node.mk s nm v
             | some child =>
               Node.mk (updateSocket s c (clearNode child cs)) nm v) from rfl, hl]
        rw [entryList_mk, entryList_mk, hupd (clearNode child cs), hs]
        rw [entryListL_append, entryListL_append]
        rw [show entryListL ((c, clearNode child cs) :: post) =
            (clearNode child cs).entryList.map (fun e => (c :: e.1, e.2)) ++ entryListL post
            from rfl]
        rw [show entryListL ((c, child) :: post) =
            child.entryList.map (fun e => (c :: e.1, e.2)) ++ entryListL post from rfl]
        rw [List.filter_append, List.filter_append, List.filter_append]
        have h2 : (if nm.isSome = true then [(([] : List Char), nm, v)] else []).filter
            (fun e => decide (e.1 ≠ c :: cs)) =
            (if nm.isSome = true then [(([] : List Char), nm, v)] else []) := by
          by_cases h0 : nm.isSome <;> simp [h0]
        have hblock : (child.entryList.map (fun e => (c :: e.1, e.2))).filter
            (fun e => decide (e.1 ≠ c :: cs)) =
            (child.entryList.filter (fun e => decide (e.1 ≠ cs))).map
              (fun e => (c :: e.1, e.2)) := by
          rw [List.filter_map]
          congr 1
          apply List.filter_congr
          rintro ⟨p, nm', v'⟩ _
          simp [Function.comp]
        rw [h2, hblock, entryListL_filter_ne_of_no_key hpre, entryListL_filter_ne_of_no_key hpost,
          ih child hwc]

theorem entries_delete {V : Type} (ks : List Char) (i : Nat) (n : Node V)
    (hw : n.wsock = true) (hi : i < ks.length) :
    (deleteEdgeAt n ks i).entryList =
      n.entryList.filter (fun e => !(pref (ks.take (i + 1)) e.1)) := by
  induction ks generalizing n i with
  | nil => simp at hi
  | cons c cs ih =>
    cases n with
    | mk s nm v =>
      have hnds : (s.map Prod.fst).Nodup := by
        have := ((wsock_iff (Node.mk s nm v)).mp hw).1
        simpa [socket_mk] using this
      have hhead : ∀ (x : List Char),
          (if nm.isSome = true then [(([] : List Char), nm, v)] else []).filter
            (fun e => !(pref (c :: x) e.1)) =
            (if nm.isSome = true then [(([] : List Char), nm, v)] else []) := by
        intro x
        by_cases h0 : nm.isSome <;> simp [h0, pref]
      cases i with
      | zero =>
        rw [show deleteEdgeAt (Node.mk s nm v) (c :: cs) 0 =
            Node.mk (eraseSocket s c) nm v from rfl]
        rw [show (c :: cs).take (0 + 1) = [c] by simp]
        cases hl : lookupSocket s c with
        | none =>
          have hc : c ∉ s.map Prod.fst := by
            rw [← lookupSocket_isSome_iff]
            simp [hl]
          rw [eraseSocket_of_not_mem hl, entryList_mk, List.filter_append, hhead [],
            entryListL_filter_not_pref_of_no_key hc]
        | some child =>
          obtain ⟨pre, post, hs, hpre, hpost, _, hers⟩ := lookup_decomp hnds hl
          rw [hers, entryList_mk, entryList_mk, hs, entryListL_append, entryListL_append]
          rw [show entryListL ((c, child) :: post) =
              child.entryList.map (fun e => (c :: e.1, e.2)) ++ entryListL post from rfl]
          rw [List.filter_append, List.filter_append, List.filter_append, hhead [],
            entryListL_filter_not_pref_of_no_key hpre,
            entryListL_filter_not_pref_of_no_key hpost]
          have hblock : (child.entryList.map (fun e => (c :: e.1, e.2))).filter
              (fun e => !(pref [c] e.1)) = [] := by
            apply List.filter_eq_nil_iff.mpr
            rintro ⟨p, nm', v'⟩ he
            obtain ⟨e, _, heq⟩ := List.mem_map.mp he
            injection heq with h1 _
            subst h1
            simp [pref]
          rw [hblock]
          simp
      | succ i' =>
        cases hl : lookupSocket s c with
        | none =>
          have hred : deleteEdgeAt (Node.mk s nm v) (c :: cs) (i' + 1) = Node.mk s nm v := by
            simp [deleteEdgeAt, socket_mk, hl]
          have hc : c ∉ s.map Prod.fst := by
            rw [← lookupSocket_isSome_iff]
            simp [hl]
          rw [hred, show (c :: cs).take (i' + 1 + 1) = c :: cs.take (i' + 1) from rfl,
            entryList_mk, List.filter_append, hhead _,
            entryListL_filter_not_pref_of_no_key hc]
        | some child =>
          have hred : deleteEdgeAt (Node.mk s nm v) (c :: cs) (i' + 1) =
              Node.mk (updateSocket s c (deleteEdgeAt child cs i')) nm v := by
            simp [deleteEdgeAt, socket_mk, name_mk, value_mk, hl]
          have hwc : child.wsock = true :=
            ((wsock_iff (Node.mk s nm v)).mp hw).2 _
              (by simpa [socket_mk] using mem_of_lookupSocket hl)
          have hi' : i' < cs.length := by simpa using hi
          obtain ⟨pre, post, hs, hpre, hpost, hupd, _⟩ := lookup_decomp hnds hl
          rw [hred, show (c :: cs).take (i' + 1 + 1) = c :: cs.take (i' + 1) from rfl,
            hupd (deleteEdgeAt child cs i'), entryList_mk, entryList_mk, hs,
            entryListL_append, entryListL_append]
          rw [show entryListL ((c, deleteEdgeAt child cs i') :: post) =
              (deleteEdgeAt child cs i').entryList.map (fun e => (c :: e.1, e.2)) ++
                entryListL post from rfl]
          rw [show entryListL ((c, child) :: post) =
              child.entryList.map (fun e => (c :: e.1, e.2)) ++ entryListL post from rfl]
          rw [List.filter_append, List.filter_append, List.filter_append, hhead _,
            entryListL_filter_not_pref_of_no_key hpre,
            entryListL_filter_not_pref_of_no_key hpost]
          have hblock : (child.entryList.map (fun e => (c :: e.1, e.2))).filter
              (fun e => !(pref (c :: cs.take (i' + 1)) e.1)) =
              (child.entryList.filter (fun e => !(pref (cs.take (i' + 1)) e.1))).map
                (fun e => (c :: e.1, e.2)) := by
            rw [List.filter_map]
            congr 1
            apply List.filter_congr
            rintro ⟨p, nm', v'⟩ _
            simp [Function.comp, pref]
          rw [hblock, ih i' child hwc hi']

theorem perm_pull_front {α : Type} (a : α) (A B C D : List α) :
    (A ++ (B ++ ((a :: C) ++ D))).Perm (a :: (A ++ (B ++ (C ++ D)))) := by
  have h1 : A ++ (B ++ ((a :: C) ++ D)) = (A ++ B) ++ a :: (C ++ D) := by simp
  have h2 : a :: ((A ++ B) ++ (C ++ D)) = a :: (A ++ (B ++ (C ++ D))) := by simp
  rw [h1, ← h2]
  exact List.perm_middle

theorem insert_fresh_entries {V : Type} (cs : List Char) (k : String) (v : V) :
    (insertNode (Node.mk [] none none) cs k v).entryList = [(cs, some k, some v)] := by
  induction cs with
  | nil => simp [insertNode, entryList_mk, entryListL]
  | cons c cs' ih =>
    rw [show insertNode (Node.mk ([] : List (Char × Node V)) none none) (c :: cs') k v =
        Node.mk [(c, insertNode (Node.mk [] none none) cs' k v)] none none from rfl]
    rw [entryList_mk]
    simp only [Option.isSome_none, Bool.false_eq_true, if_false, List.nil_append]
    rw [show entryListL [(c, insertNode (Node.mk ([] : List (Char × Node V)) none none) cs' k v)] =
        (insertNode (Node.mk [] none none) cs' k v).entryList.map (fun e => (c :: e.1, e.2)) ++
          entryListL [] from rfl]
    rw [ih]
    simp [entryListL]

theorem entries_insert {V : Type} (ks : List Char) (k : String) (v : V) (n : Node V)
    (hw : n.wsock = true) :
    (insertNode n ks k v).entryList.Perm
      ((ks, some k, some v) :: n.entryList.filter (fun e => decide (e.1 ≠ ks))) := by
  induction ks generalizing n with
  | nil =>
    cases n with
    | mk s nm v0 =>
      rw [show insertNode (Node.mk s nm v0) [] k v = Node.mk s (some k) (some v) from rfl]
      rw [entryList_mk, entryList_mk, List.filter_append]
      have h2 : (if nm.isSome = true then [(([] : List Char), nm, v0)] else []).filter
          (fun e => decide (e.1 ≠ [])) = [] := by
        by_cases h0 : nm.isSome <;> simp [h0]
      have h3 : (entryListL s).filter (fun e => decide (e.1 ≠ ([] : List Char))) =
          entryListL s := by
        apply List.filter_eq_self.mpr
        rintro ⟨p, nm', v'⟩ hmem
        simpa using entryListL_path_ne_nil hmem
      rw [h2, h3]
      simp

  | cons c cs ih =>
    cases n with
    | mk s nm v0 =>
      have hnds : (s.map Prod.fst).Nodup := by
        have := ((wsock_iff (Node.mk s nm v0)).mp hw).1
        simpa [socket_mk] using this
      have hhead : (if nm.isSome = true then [(([] : List Char), nm, v0)] else []).filter
          (fun e => decide (e.1 ≠ c :: cs)) =
          (if nm.isSome = true then [(([] : List Char), nm, v0)] else []) := by
        by_cases h0 : nm.isSome <;> simp [h0]
      cases hl : lookupSocket s c with
      | none =>
        have hred : insertNode (Node.mk s nm v0) (c :: cs) k v =
            Node.mk (updateSocket s c (insertNode (Node.mk [] none none) cs k v)) nm v0 := by
          simp [insertNode, socket_mk, name_mk, value_mk, hl]
        have hc : c ∉ s.map Prod.fst := by
          rw [← lookupSocket_isSome_iff]
          simp [hl]
        rw [hred, updateSocket_of_not_mem hl, entryList_mk, entryList_mk,
          entryListL_append]
        rw [show entryListL [(c, insertNode (Node.mk ([] : List (Char × Node V)) none none) cs k v)] =
            (insertNode (Node.mk [] none none) cs k v).entryList.map (fun e => (c :: e.1, e.2)) ++
              entryListL [] from rfl]
        rw [insert_fresh_entries]
        rw [List.filter_append, hhead, entryListL_filter_ne_of_no_key hc]
        simp only [List.map_cons, List.map_nil, entryListL]
        rw [List.append_nil, ← List.append_assoc]
        exact List.perm_append_singleton _ _
      | some child =>
        have hred : insertNode (Node.mk s nm v0) (c :: cs) k v =
            Node.mk (updateSocket s c (insertNode child cs k v)) nm v0 := by
          simp [insertNode, socket_mk, name_mk, value_mk, hl]
        have hwc : child.wsock = true :=
          ((wsock_iff (Node.mk s nm v0)).mp hw).2 _
            (by simpa [socket_mk] using mem_of_lookupSocket hl)
        obtain ⟨pre, post, hs, hpre, hpost, hupd, _⟩ := lookup_decomp hnds hl
        rw [hred, hupd (insertNode child cs k v), entryList_mk, entryList_mk, hs,
          entryListL_append, entryListL_append]
        rw [show entryListL ((c, insertNode child cs k v) :: post) =
            (insertNode child cs k v).entryList.map (fun e => (c :: e.1, e.2)) ++
              entryListL post from rfl]
        rw [show entryListL ((c, child) :: post) =
            child.entryList.map (fun e => (c :: e.1, e.2)) ++ entryListL post from rfl]
        rw [List.filter_append, List.filter_append, List.filter_append, hhead,
          entryListL_filter_ne_of_no_key hpre, entryListL_filter_ne_of_no_key hpost]
        have hblock : (child.entryList.map (fun e => (c :: e.1, e.2))).filter
            (fun e => decide (e.1 ≠ c :: cs)) =
            (child.entryList.filter (fun e => decide (e.1 ≠ cs))).map
              (fun e => (c :: e.1, e.2)) := by
          rw [List.filter_map]
          congr 1
          apply List.filter_congr
          rintro ⟨p, nm', v'⟩ _
          simp [Function.comp]
        rw [hblock]
        have hmap : ((insertNode child cs k v).entryList.map (fun e => (c :: e.1, e.2))).Perm
            ((c :: cs, some k, some v) ::
              (child.entryList.filter (fun e => decide (e.1 ≠ cs))).map
                (fun e => (c :: e.1, e.2))) := by
          have := (ih child hwc).map (fun e : List Char × Option String × Option V =>
            (c :: e.1, e.2))
          simpa using this
        refine (List.Perm.append_left _ (List.Perm.append_left _ (hmap.append_right _))).trans ?_
        exact perm_pull_front _ _ _ _ _

theorem wsock_fresh {V : Type} : (Node.mk ([] : List (Char × Node V)) none none).wsock = true := by
  rw [wsock_iff]
  simp [socket_mk]

theorem wsock_insert {V : Type} (ks : List Char) (k : String) (v : V) (n : Node V)
    (hw : n.wsock = true) : (insertNode n ks k v).wsock = true := by
  induction ks generalizing n with
  | nil =>
    cases n with
    | mk s nm v0 =>
      rw [show insertNode (Node.mk s nm v0) [] k v = Node.mk s (some k) (some v) from rfl]
      rw [wsock_iff] at hw ⊢
      simpa [socket_mk] using hw
  | cons c cs ih =>
    cases n with
    | mk s nm v0 =>
      obtain ⟨hnd0, hmem0⟩ := (wsock_iff (Node.mk s nm v0)).mp hw
      rw [socket_mk] at hnd0 hmem0
      rw [show insertNode (Node.mk s nm v0) (c :: cs) k v =
          Node.mk (updateSocket s c
            (insertNode ((lookupSocket s c).getD (Node.mk [] none none)) cs k v)) nm v0
          from rfl]
      rw [wsock_iff, socket_mk]
      constructor
      · rw [keys_updateSocket]
        by_cases hc : c ∈ s.map Prod.fst
        · simpa [hc] using hnd0
        · rw [if_neg hc]
          refine List.Nodup.append hnd0 (List.nodup_singleton c) ?_
          intro x hx hx'
          simp only [List.mem_singleton] at hx'
          subst hx'
          exact hc hx
      · intro pr hpr
        rcases mem_updateSocket hpr with rfl | hmem
        · apply ih
          cases hl : lookupSocket s c with
          | none => simpa [hl] using wsock_fresh
          | some child =>
            simp only [hl, Option.getD_some]
            exact hmem0 _ (mem_of_lookupSocket hl)
        · exact hmem0 _ hmem

theorem wsock_clear {V : Type} (ks : List Char) (n : Node V)
    (hw : n.wsock = true) : (clearNode n ks).wsock = true := by
  induction ks generalizing n with
  | nil =>
    cases n with
    | mk s nm v0 =>
      rw [show clearNode (Node.mk s nm v0) [] = Node.mk s none none from rfl]
      rw [wsock_iff] at hw ⊢
      simpa [socket_mk] using hw
  | cons c cs ih =>
    cases n with
    | mk s nm v0 =>
      obtain ⟨hnd0, hmem0⟩ := (wsock_iff (Node.mk s nm v0)).mp hw
      rw [socket_mk] at hnd0 hmem0
      cases hl : lookupSocket s c with
      | none =>
        have hred : clearNode (Node.mk s nm v0) (c :: cs) = Node.mk s nm v0 := by
          simp [clearNode, socket_mk, hl]
        rw [hred]
        exact hw
      | some child =>
        have hred : clearNode (Node.mk s nm v0) (c :: cs) =
            Node.mk (updateSocket s c (clearNode child cs)) nm v0 := by
          simp [clearNode, socket_mk, name_mk, value_mk, hl]
        rw [hred, wsock_iff, socket_mk]
        constructor
        · rw [keys_updateSocket]
          have hc : c ∈ s.map Prod.fst := by
            rw [← lookupSocket_isSome_iff]
            simp [hl]
          simpa [hc] using hnd0
        · intro pr hpr
          rcases mem_updateSocket hpr with rfl | hmem
          · exact ih child (hmem0 _ (mem_of_lookupSocket hl))
          · exact hmem0 _ hmem

theorem wsock_delete {V : Type} (ks : List Char) (i : Nat) (n : Node V)
    (hw : n.wsock = true) : (deleteEdgeAt n ks i).wsock = true := by
  induction ks generalizing n i with
  | nil =>
    cases n with
    | mk s nm v0 => exact hw
  | cons c cs ih =>
    cases n with
    | mk s nm v0 =>
      obtain ⟨hnd0, hmem0⟩ := (wsock_iff (Node.mk s nm v0)).mp hw
      rw [socket_mk] at hnd0 hmem0
      cases i with
      | zero =>
        rw [show deleteEdgeAt (Node.mk s nm v0) (c :: cs) 0 =
            Node.mk (eraseSocket s c) nm v0 from rfl]
        rw [wsock_iff, socket_mk]
        constructor
        · exact List.Sublist.nodup ((eraseSocket_sublist s c).map Prod.fst) hnd0
        · intro pr hpr
          exact hmem0 _ ((eraseSocket_sublist s c).subset hpr)
      | succ i' =>
        cases hl : lookupSocket s c with
        | none =>
          have hred : deleteEdgeAt (Node.mk s nm v0) (c :: cs) (i' + 1) = Node.mk s nm v0 := by
            simp [deleteEdgeAt, socket_mk, hl]
          rw [hred]
          exact hw
        | some child =>
          have hred : deleteEdgeAt (Node.mk s nm v0) (c :: cs) (i' + 1) =
              Node.mk (updateSocket s c (deleteEdgeAt child cs i')) nm v0 := by
            simp [deleteEdgeAt, socket_mk, name_mk, value_mk, hl]
          rw [hred, wsock_iff, socket_mk]
          constructor
          · rw [keys_updateSocket]
            have hc : c ∈ s.map Prod.fst := by
              rw [← lookupSocket_isSome_iff]
              simp [hl]
            simpa [hc] using hnd0
          · intro pr hpr
            rcases mem_updateSocket hpr with rfl | hmem
            · exact ih i' child (hmem0 _ (mem_of_lookupSocket hl))
            · exact hmem0 _ hmem

theorem liveb_iff {V : Type} (n : Node V) :
    n.liveb = true ↔ ∀ pr ∈ n.socket, pr.2.entryList ≠ [] ∧ pr.2.liveb = true := by
  cases n with
  | mk s nm v =>
    rw [show (Node.mk s nm v).liveb = liveL s from rfl, socket_mk]
    induction s with
    | nil => simp [liveL]
    | cons hd r ih =>
      obtain ⟨c, nd⟩ := hd
      rw [show liveL ((c, nd) :: r) =
          (!(Node.entryList nd).isEmpty && nd.liveb && liveL r) from rfl]
      simp only [Bool.and_eq_true, Bool.not_eq_true', List.isEmpty_eq_false, ih,
        List.mem_cons]
      constructor
      · rintro ⟨⟨h1, h2⟩, h3⟩ pr hpr
        rcases hpr with rfl | hpr
        · exact ⟨by simpa using h1, h2⟩
        · exact h3 pr hpr
      · intro h
        refine ⟨⟨by simpa using (h (c, nd) (Or.inl rfl)).1, (h (c, nd) (Or.inl rfl)).2⟩, ?_⟩
        intro pr hpr
        exact h pr (Or.inr hpr)

theorem liveb_walk {V : Type} {n m : Node V} {p : List Char}
    (hb : n.liveb = true) (hwalk : walkNode n p = some m) :
    m.liveb = true ∧ (p ≠ [] → m.entryList ≠ []) := by
  induction p generalizing n with
  | nil =>
    simp only [walkNode] at hwalk
    cases hwalk
    exact ⟨hb, by simp⟩
  | cons c cs ih =>
    rw [walkNode_cons] at hwalk
    cases hl : lookupSocket n.socket c with
    | none => simp [hl] at hwalk
    | some child =>
      simp only [hl, Option.some_bind] at hwalk
      have hchild := (liveb_iff n).mp hb _ (mem_of_lookupSocket hl)
      cases cs with
      | nil =>
        simp only [walkNode] at hwalk
        cases hwalk
        exact ⟨hchild.2, fun _ => hchild.1⟩
      | cons d cs' =>
        obtain ⟨h1, h2⟩ := ih hchild.2 hwalk
        exact ⟨h1, fun _ => h2 (by simp)⟩

theorem size_mem_le {V : Type} {s : List (Char × Node V)} {c : Char} {child : Node V}
    (hmem : (c, child) ∈ s) : child.size ≤ sizeL s := by
  induction s with
  | nil => simp at hmem
  | cons hd r ih =>
    obtain ⟨d, nd⟩ := hd
    rcases List.mem_cons.mp hmem with heq | hmem'
    · cases heq
      rw [show sizeL ((c, child) :: r) = child.size + sizeL r from rfl]
      omega
    · rw [show sizeL ((d, nd) :: r) = nd.size + sizeL r from rfl]
      have := ih hmem'
      omega

theorem size_lt_of_mem {V : Type} {s : List (Char × Node V)} {nm : Option String}
    {v : Option V} {c : Char} {child : Node V} (hmem : (c, child) ∈ s) :
    child.size < (Node.mk s nm v).size := by
  rw [show (Node.mk s nm v).size = 1 + sizeL s from rfl]
  have := size_mem_le hmem
  omega

theorem live_of_walk_entries {V : Type} (n : Node V) (hw : n.wsock = true)
    (h : ∀ p m, walkNode n p = some m → p ≠ [] → m.entryList ≠ []) : n.liveb = true := by
  generalize hN : n.size = N
  induction N using Nat.strong_induction_on generalizing n with
  | _ N ihN =>
    rw [liveb_iff]
    rintro ⟨c, child⟩ hpr
    have hnd : (n.socket.map Prod.fst).Nodup := ((wsock_iff n).mp hw).1
    have hl : lookupSocket n.socket c = some child := lookupSocket_of_mem hpr hnd
    have hwalk1 : walkNode n [c] = some child := by
      rw [walkNode_cons]
      simp [hl, walkNode]
    constructor
    · exact h [c] child hwalk1 (by simp)
    · refine ihN child.size ?_ child (((wsock_iff n).mp hw).2 _ hpr) ?_ rfl
      · rw [← hN]
        cases n with
        | mk s nm v => exact size_lt_of_mem (by simpa [socket_mk] using hpr)
      · intro p m hwalk hp
        refine h (c :: p) m ?_ (by simp)
        rw [walkNode_cons]
        simp [hl, hwalk]

theorem walk_clear_isSome {V : Type} (ks p : List Char) (n : Node V) :
    (walkNode (clearNode n ks) p).isSome = (walkNode n p).isSome := by
  induction ks generalizing n p with
  | nil =>
    cases n with
    | mk s nm v =>
      rw [show clearNode (Node.mk s nm v) [] = Node.mk s none none from rfl]
      cases p with
      | nil => simp [walkNode]
      | cons c cs => rw [walkNode_cons, walkNode_cons, socket_mk, socket_mk]
  | cons c cs ih =>
    cases n with
    | mk s nm v =>
      cases hl : lookupSocket s c with
      | none =>
        have hred : clearNode (Node.mk s nm v) (c :: cs) = Node.mk s nm v := by
          simp [clearNode, socket_mk, hl]
        rw [hred]
      | some child =>
        have hred : clearNode (Node.mk s nm v) (c :: cs) =
            Node.mk (updateSocket s c (clearNode child cs)) nm v := by
          simp [clearNode, socket_mk, name_mk, value_mk, hl]
        rw [hred]
        cases p with
        | nil => simp [walkNode]
        | cons d ps =>
          rw [walkNode_cons, walkNode_cons, socket_mk, socket_mk, lookupSocket_update]
          by_cases hcd : c = d
          · subst hcd
            rw [if_pos rfl, hl]
            simp only [Option.some_bind]
            exact ih ps child
          · rw [if_neg hcd]

theorem pref_eq_take {a x : List Char} (h : pref a x = true) : a = x.take a.length := by
  obtain ⟨s, rfl⟩ := (pref_iff a x).mp h
  rw [List.take_left]

theorem pref_take_take {x : List Char} {j i : Nat} (h : j ≤ i) :
    pref (x.take j) (x.take i) = true := by
  have h1 : (x.take i).take j = x.take j := by
    rw [List.take_take]
    congr 1
    omega
  rw [← h1]
  exact pref_take j

theorem pref_comparable {a b x : List Char} (ha : pref a x = true) (hb : pref b x = true) :
    pref a b = true ∨ pref b a = true := by
  rcases Nat.le_total a.length b.length with h | h
  · left
    rw [pref_eq_take ha, pref_eq_take hb]
    exact pref_take_take h
  · right
    rw [pref_eq_take hb, pref_eq_take ha]
    exact pref_take_take h

theorem walk_delete_isSome {V : Type} (ks : List Char) (i : Nat) (p : List Char) (n : Node V)
    (hw : n.wsock = true) (hp : pref (ks.take (i + 1)) p = false) :
    (walkNode (deleteEdgeAt n ks i) p).isSome = (walkNode n p).isSome := by
  induction ks generalizing n i p with
  | nil =>
    cases n with
    | mk s nm v => rfl
  | cons c cs ih =>
    cases n with
    | mk s nm v =>
      have hnds : (s.map Prod.fst).Nodup := by
        have := ((wsock_iff (Node.mk s nm v)).mp hw).1
        simpa [socket_mk] using this
      cases i with
      | zero =>
        rw [show deleteEdgeAt (Node.mk s nm v) (c :: cs) 0 =
            Node.mk (eraseSocket s c) nm v from rfl]
        rw [show (c :: cs).take (0 + 1) = [c] by simp] at hp
        cases p with
        | nil => simp [walkNode]
        | cons d ps =>
          have hcd : ¬ c = d := by
            intro h
            subst h
            simp [pref] at hp
          rw [walkNode_cons, walkNode_cons, socket_mk, socket_mk,
            lookupSocket_erase s c d hnds, if_neg hcd]
      | succ i' =>
        cases hl : lookupSocket s c with
        | none =>
          have hred : deleteEdgeAt (Node.mk s nm v) (c :: cs) (i' + 1) = Node.mk s nm v := by
            simp [deleteEdgeAt, socket_mk, hl]
          rw [hred]
        | some child =>
          have hred : deleteEdgeAt (Node.mk s nm v) (c :: cs) (i' + 1) =
              Node.mk (updateSocket s c (deleteEdgeAt child cs i')) nm v := by
            simp [deleteEdgeAt, socket_mk, name_mk, value_mk, hl]
          rw [hred]
          rw [show (c :: cs).take (i' + 1 + 1) = c :: cs.take (i' + 1) from rfl] at hp
          cases p with
          | nil => simp [walkNode]
          | cons d ps =>
            rw [walkNode_cons, walkNode_cons, socket_mk, socket_mk, lookupSocket_update]
            by_cases hcd : c = d
            · subst hcd
              rw [if_pos rfl, hl]
              simp only [Option.some_bind]
              have hp' : pref (cs.take (i' + 1)) ps = false := by
                simpa [pref] using hp
              exact ih i' ps child
                (((wsock_iff (Node.mk s nm v)).mp hw).2 _
                  (by simpa [socket_mk] using mem_of_lookupSocket hl)) hp'
            · rw [if_neg hcd]

theorem walk_delete_dead {V : Type} (ks : List Char) (i : Nat) (p : List Char) (n : Node V)
    (hw : n.wsock = true) (hup : (walkNode n (ks.take (i + 1))).isSome = true)
    (hi : i < ks.length) (hp : pref (ks.take (i + 1)) p = true) :
    walkNode (deleteEdgeAt n ks i) p = none := by
  induction ks generalizing n i p with
  | nil => simp at hi
  | cons c cs ih =>
    cases n with
    | mk s nm v =>
      have hnds : (s.map Prod.fst).Nodup := by
        have := ((wsock_iff (Node.mk s nm v)).mp hw).1
        simpa [socket_mk] using this
      cases i with
      | zero =>
        rw [show deleteEdgeAt (Node.mk s nm v) (c :: cs) 0 =
            Node.mk (eraseSocket s c) nm v from rfl]
        rw [show (c :: cs).take (0 + 1) = [c] by simp] at hp
        obtain ⟨s', hs'⟩ := (pref_iff _ _).mp hp
        subst hs'
        rw [List.singleton_append, walkNode_cons, socket_mk,
          lookupSocket_erase s c c hnds, if_pos rfl]
        rfl
      | succ i' =>
        rw [show (c :: cs).take (i' + 1 + 1) = c :: cs.take (i' + 1) from rfl] at hp hup
        cases hl : lookupSocket s c with
        | none =>
          rw [walkNode_cons, socket_mk, hl] at hup
          simp at hup
        | some child =>
          have hred : deleteEdgeAt (Node.mk s nm v) (c :: cs) (i' + 1) =
              Node.mk (updateSocket s c (deleteEdgeAt child cs i')) nm v := by
            simp [deleteEdgeAt, socket_mk, name_mk, value_mk, hl]
          rw [hred]
          obtain ⟨s', hs'⟩ := (pref_iff _ _).mp hp
          rw [List.cons_append] at hs'
          subst hs'
          rw [walkNode_cons, socket_mk, lookupSocket_update, if_pos rfl]
          simp only [Option.some_bind]
          rw [walkNode_cons, socket_mk, hl] at hup
          simp only [Option.some_bind] at hup
          exact ih i' _ child
            (((wsock_iff (Node.mk s nm v)).mp hw).2 _
              (by simpa [socket_mk] using mem_of_lookupSocket hl))
            hup (by simpa using hi) (pref_append _ _)

/-- A position `j` on the key's path is an anchor when the node before the
path's character `j` is terminal or has at least two children (the condition
recorded by the `remove` re-walk). -/
def anchorCond {V : Type} (n : Node V) (cs : List Char) (j : Nat) : Prop :=
  ∃ mj, walkNode n (cs.take j) = some mj ∧
    (mj.name.isSome = true ∨ mj.socket.length ≥ 2)

theorem anchorCond_zero {V : Type} (n : Node V) (cs : List Char) :
    anchorCond n cs 0 ↔ (n.name.isSome = true ∨ n.socket.length ≥ 2) := by
  unfold anchorCond
  simp [walkNode]

theorem anchorCond_shift {V : Type} {n child : Node V} {c : Char} (cs' : List Char) (j : Nat)
    (hl : lookupSocket n.socket c = some child) :
    anchorCond n (c :: cs') (j + 1) ↔ anchorCond child cs' j := by
  unfold anchorCond
  rw [show (c :: cs').take (j + 1) = c :: cs'.take j from rfl, walkNode_cons, hl,
    Option.some_bind]

theorem findPoint_none_iff {V : Type} (cs : List Char) (n : Node V) (pos : Nat)
    (pt : Option Nat) : findPoint n cs pos pt = none ↔ walkNode n cs = none := by
  induction cs generalizing n pos pt with
  | nil => simp [findPoint, walkNode]
  | cons c cs' ih =>
    rw [walkNode_cons]
    cases hl : lookupSocket n.socket c with
    | none => simp [findPoint, hl]
    | some child =>
      simp only [findPoint, hl, Option.some_bind]
      exact ih child (pos + 1) _

theorem findPoint_no_anchor {V : Type} (cs : List Char) (n : Node V) (pos : Nat)
    (pt : Option Nat) (hwalk : walkNode n cs ≠ none)
    (hno : ∀ j, j < cs.length → ¬ anchorCond n cs j) :
    findPoint n cs pos pt = some pt := by
  induction cs generalizing n pos pt with
  | nil => simp [findPoint]
  | cons c cs' ih =>
    rw [walkNode_cons] at hwalk
    cases hl : lookupSocket n.socket c with
    | none => simp [hl] at hwalk
    | some child =>
      simp only [hl, Option.some_bind] at hwalk
      have h0 : ¬ (n.name.isSome = true ∨ n.socket.length ≥ 2) := by
        intro h
        exact hno 0 (by simp) ((anchorCond_zero n (c :: cs')).mpr h)
      have hif : (if n.name.isSome || n.socket.length ≥ 2 then some pos else pt) = pt := by
        rw [if_neg]
        simp only [Bool.or_eq_true, decide_eq_true_eq]
        exact fun h => h0 (by tauto)
      rw [show findPoint n (c :: cs') pos pt =
          (match lookupSocket n.socket c with
           | none => none
           | some child =>
             findPoint child cs' (pos + 1)
               (if n.name.isSome || n.socket.length ≥ 2 then some pos else pt)) from rfl,
        hl, hif]
      refine ih child (pos + 1) pt hwalk ?_
      intro j hj hc
      exact hno (j + 1) (by simpa using hj) ((anchorCond_shift cs' j hl).mpr hc)

theorem findPoint_anchor {V : Type} (cs : List Char) (j : Nat) (n : Node V) (pos : Nat)
    (pt : Option Nat) (hwalk : walkNode n cs ≠ none) (hj : j < cs.length)
    (hc : anchorCond n cs j)
    (hmax : ∀ j', j < j' → j' < cs.length → ¬ anchorCond n cs j') :
    findPoint n cs pos pt = some (some (pos + j)) := by
  induction cs generalizing n pos pt j with
  | nil => simp at hj
  | cons c cs' ih =>
    rw [walkNode_cons] at hwalk
    cases hl : lookupSocket n.socket c with
    | none => simp [hl] at hwalk
    | some child =>
      simp only [hl, Option.some_bind] at hwalk
      have hred : findPoint n (c :: cs') pos pt =
          findPoint child cs' (pos + 1)
            (if n.name.isSome || n.socket.length ≥ 2 then some pos else pt) := by
        simp [findPoint, hl]
      cases j with
      | zero =>
        have h0 : n.name.isSome = true ∨ n.socket.length ≥ 2 :=
          (anchorCond_zero n (c :: cs')).mp hc
        have hif : (if n.name.isSome || n.socket.length ≥ 2 then some pos else pt) =
            some pos := by
          rw [if_pos]
          simp only [Bool.or_eq_true, decide_eq_true_eq]
          tauto
        rw [hred, hif, findPoint_no_anchor cs' child (pos + 1) (some pos) hwalk ?_]
        · simp
        · intro j' hj' hcj'
          exact hmax (j' + 1) (by omega) (by simpa using hj')
            ((anchorCond_shift cs' j' hl).mpr hcj')
      | succ j'' =>
        rw [hred, show pos + (j'' + 1) = (pos + 1) + j'' from by omega]
        refine ih j'' child (pos + 1) _ hwalk (by simpa using hj)
          ((anchorCond_shift cs' j'' hl).mp hc) ?_
        intro j' hj1 hj2
        intro hcj'
        exact hmax (j' + 1) (by omega) (by simpa using hj2)
          ((anchorCond_shift cs' j' hl).mpr hcj')

theorem exists_greatest_below {P : Nat → Prop} {b : Nat} (h : ∃ j, j < b ∧ P j) :
    ∃ j, j < b ∧ P j ∧ ∀ j', j < j' → j' < b → ¬ P j' := by
  induction b with
  | zero => obtain ⟨j, hj, _⟩ := h; omega
  | succ b' ih =>
    by_cases hb : P b'
    · exact ⟨b', by omega, hb, fun j' h1 h2 => by omega⟩
    · obtain ⟨j, hj, hPj⟩ := h
      have hjb : j < b' := by
        rcases Nat.lt_succ_iff_lt_or_eq.mp hj with h' | h'
        · exact h'
        · subst h'; exact absurd hPj hb
      obtain ⟨j0, hj0, hPj0, hmax⟩ := ih ⟨j, hjb, hPj⟩
      refine ⟨j0, by omega, hPj0, ?_⟩
      intro j' h1 h2
      rcases Nat.lt_succ_iff_lt_or_eq.mp h2 with h' | h'
      · exact hmax j' h1 h'
      · subst h'; exact hb

theorem chain_entries {V : Type} (ss : List Char) (a m : Node V)
    (hwalk : walkNode a ss = some m) (hterm : m.name.isSome = true) (hleaf : m.socket = [])
    (hmid : ∀ j, j < ss.length → ∀ mj, walkNode a (ss.take j) = some mj →
      mj.name = none ∧ mj.socket.length ≤ 1) :
    a.entryList = [(ss, m.name, m.value)] := by
  induction ss generalizing a with
  | nil =>
    simp only [walkNode] at hwalk
    cases hwalk
    cases m with
    | mk s nm v =>
      rw [socket_mk] at hleaf
      subst hleaf
      rw [entryList_mk, name_mk, value_mk]
      rw [name_mk] at hterm
      simp [hterm, entryListL]
  | cons c ss' ih =>
    have h0 := hmid 0 (by simp) a (by simp [walkNode])
    rw [walkNode_cons] at hwalk
    cases hl : lookupSocket a.socket c with
    | none => simp [hl] at hwalk
    | some child =>
      simp only [hl, Option.some_bind] at hwalk
      have hmem : (c, child) ∈ a.socket := mem_of_lookupSocket hl
      have hsock : a.socket = [(c, child)] := by
        cases hsk : a.socket with
        | nil => rw [hsk] at hmem; simp at hmem
        | cons hd r =>
          rw [hsk] at h0
          have hr : r = [] := by
            have := h0.2
            simp at this
            exact this
          subst hr
          rw [hsk] at hmem
          rcases List.mem_cons.mp hmem with heq | habs
          · rw [← heq]
          · simp at habs
      cases a with
      | mk s nm v =>
        rw [socket_mk] at hsock
        subst hsock
        have hnm : nm = none := by
          have := h0.1
          rwa [name_mk] at this
        subst hnm
        rw [entryList_mk]
        simp only [Option.isSome_none, Bool.false_eq_true, if_false, List.nil_append]
        rw [show entryListL [(c, child)] =
            child.entryList.map (fun e => (c :: e.1, e.2)) ++ entryListL [] from rfl]
        rw [ih child hwalk]
        · simp [entryListL]
        · intro j hj mj hwj
          refine hmid (j + 1) (by simpa using hj) mj ?_
          rw [show (c :: ss').take (j + 1) = c :: ss'.take j from rfl, walkNode_cons,
            socket_mk, lookupSocket, if_pos rfl, Option.some_bind]
          exact hwj

theorem dfsRevL_eq_flatten {V : Type} (s : List (Char × Node V)) :
    dfsRevL s = (((s.map (fun p => p.2)).reverse).map Node.dfs).flatten := by
  induction s with
  | nil => simp [dfsRevL]
  | cons hd r ih =>
    obtain ⟨c, n⟩ := hd
    rw [show dfsRevL ((c, n) :: r) = dfsRevL r ++ n.dfs from rfl, ih]
    simp

mutual
theorem dfs_perm_values {V : Type} : ∀ (n : Node V),
    n.dfs.Perm (n.entryList.map (fun e => e.2.2))
  | .mk s nm v => by
    rw [entryList_mk, List.map_append]
    have hhead : (if nm.isSome = true then [(([] : List Char), nm, v)] else []).map
        (fun e : List Char × Option String × Option V => e.2.2) =
        (if nm.isSome = true then [v] else []) := by
      by_cases h0 : nm.isSome <;> simp [h0]
    rw [hhead]
    cases s with
    | nil =>
      rw [show (Node.mk ([] : List (Char × Node V)) nm v).dfs =
          (if nm.isSome = true then [v] else []) ++ [] from rfl]
      rw [show entryListL ([] : List (Char × Node V)) = [] from rfl]
      simp
    | cons hd r =>
      obtain ⟨c0, ch0⟩ := hd
      rw [show (Node.mk ((c0, ch0) :: r) nm v).dfs =
          (if nm.isSome = true then [v] else []) ++ (ch0.dfs ++ dfsRevL r) from rfl]
      refine List.Perm.append_left _ ?_
      rw [show entryListL ((c0, ch0) :: r) =
          ch0.entryList.map (fun e => (c0 :: e.1, e.2)) ++ entryListL r from rfl,
        List.map_append, List.map_map]
      rw [show ((fun e : List Char × Option String × Option V => e.2.2) ∘
          (fun e : List Char × Option String × Option V => (c0 :: e.1, e.2))) =
          (fun e : List Char × Option String × Option V => e.2.2) from rfl]
      exact (dfs_perm_values ch0).append (dfsRevL_perm_values r)

theorem dfsRevL_perm_values {V : Type} : ∀ (s : List (Char × Node V)),
    (dfsRevL s).Perm ((entryListL s).map (fun e => e.2.2))
  | [] => by
    rw [show dfsRevL ([] : List (Char × Node V)) = [] from rfl,
      show entryListL ([] : List (Char × Node V)) = [] from rfl]
    simp
  | (c, n) :: r => by
    rw [show dfsRevL ((c, n) :: r) = dfsRevL r ++ n.dfs from rfl]
    rw [show entryListL ((c, n) :: r) =
        n.entryList.map (fun e => (c :: e.1, e.2)) ++ entryListL r from rfl]
    rw [List.map_append, List.map_map]
    rw [show ((fun e : List Char × Option String × Option V => e.2.2) ∘
        (fun e : List Char × Option String × Option V => (c :: e.1, e.2))) =
        (fun e : List Char × Option String × Option V => e.2.2) from rfl]
    exact ((dfsRevL_perm_values r).append (dfs_perm_values n)).trans List.perm_append_comm
end

theorem matchLoop_none_eq {V : Type} (node : Node V) (points : List (Node V))
    (res : List (Option V)) :
    matchLoop none node points res =
      res ++ node.dfs ++ ((points.map Node.dfs).flatten) := by
  induction node, points, res using matchLoop.induct none with
  | case1 node points res h => simp [countReached] at h
  | case2 node res h hs =>
    rw [matchLoop]
    cases node with
    | mk s nm v =>
      rw [socket_mk] at hs
      subst hs
      rw [show (Node.mk ([] : List (Char × Node V)) nm v).dfs =
          (if nm.isSome = true then [v] else []) ++ [] from rfl]
      by_cases h0 : nm.isSome <;>
        simp [countReached, socket_mk, name_mk, value_mk, h0]
  | case3 node res h hs r' next rest ih =>
    rw [matchLoop]
    cases node with
    | mk s nm v =>
      rw [socket_mk] at hs
      subst hs
      rw [show (Node.mk ([] : List (Char × Node V)) nm v).dfs =
          (if nm.isSome = true then [v] else []) ++ [] from rfl]
      by_cases h0 : nm.isSome
      · have hr' : r' = res ++ [v] := by
          simp +zetaDelta [name_mk, value_mk, h0]
        rw [hr'] at ih
        simp [countReached, socket_mk, name_mk, value_mk, h0, ih, List.append_assoc]
      · have hr' : r' = res := by
          simp +zetaDelta [name_mk, value_mk, h0]
        rw [hr'] at ih
        simp [countReached, socket_mk, name_mk, value_mk, h0, ih, List.append_assoc]
  | case4 node points res h c child restS hs r' hge ih =>
    rw [matchLoop]
    cases node with
    | mk s nm v =>
      rw [socket_mk] at hs
      subst hs
      rw [show (Node.mk ((c, child) :: restS) nm v).dfs =
          (if nm.isSome = true then [v] else []) ++ (child.dfs ++ dfsRevL restS) from rfl]
      by_cases h0 : nm.isSome
      · have hr' : r' = res ++ [v] := by
          simp +zetaDelta [name_mk, value_mk, h0]
        rw [hr'] at ih
        simp [countReached, socket_mk, name_mk, value_mk, h0, hge, ih,
          dfsRevL_eq_flatten, List.append_assoc, Function.comp_def]
      · have hr' : r' = res := by
          simp +zetaDelta [name_mk, value_mk, h0]
        rw [hr'] at ih
        simp [countReached, socket_mk, name_mk, value_mk, h0, hge, ih,
          dfsRevL_eq_flatten, List.append_assoc, Function.comp_def]
  | case5 node points res h c child restS hs r' hlt ih =>
    rw [matchLoop]
    cases node with
    | mk s nm v =>
      rw [socket_mk] at hs
      subst hs
      have hrest : restS = [] := by
        cases restS with
        | nil => rfl
        | cons a b => simp at hlt
      subst hrest
      rw [show (Node.mk ([(c, child)] : List (Char × Node V)) nm v).dfs =
          (if nm.isSome = true then [v] else []) ++ (child.dfs ++ dfsRevL []) from rfl]
      by_cases h0 : nm.isSome
      · have hr' : r' = res ++ [v] := by
          simp +zetaDelta [name_mk, value_mk, h0]
        rw [hr'] at ih
        simp [countReached, socket_mk, name_mk, value_mk, h0, ih,
          show dfsRevL ([] : List (Char × Node V)) = [] from rfl, List.append_assoc]
      · have hr' : r' = res := by
          simp +zetaDelta [name_mk, value_mk, h0]
        rw [hr'] at ih
        simp [countReached, socket_mk, name_mk, value_mk, h0, ih,
          show dfsRevL ([] : List (Char × Node V)) = [] from rfl, List.append_assoc]

theorem countReached_some_iff {V : Type} (c : Int) (res : List (Option V)) :
    countReached (some c) res = true ↔ (c ≠ 0 ∧ (res.length : Int) ≥ c) := by
  simp [countReached]

theorem take_cons_middle {α : Type} (res : List α) (v : α) (X : List α) {n : Nat}
    (h : res.length + 1 = n) : (res ++ v :: X).take n = res ++ [v] := by
  have heq : res ++ v :: X = (res ++ [v]) ++ X := by simp
  rw [heq]
  exact List.take_left' (by simp; omega)

theorem matchLoop_take {V : Type} (c : Int) (hc : 0 < c) (node : Node V)
    (points : List (Node V)) (res : List (Option V)) (hlen : res.length < c.toNat) :
    matchLoop (some c) node points res =
      (res ++ node.dfs ++ ((points.map Node.dfs).flatten)).take c.toNat := by
  induction node, points, res using matchLoop.induct (some c) with
  | case1 node points res h =>
    rw [countReached_some_iff] at h
    exfalso
    omega
  | case2 node res h hs =>
    rw [matchLoop, if_neg h]
    cases node with
    | mk s nm v =>
      rw [socket_mk] at hs
      subst hs
      rw [show (Node.mk ([] : List (Char × Node V)) nm v).dfs =
          (if nm.isSome = true then [v] else []) ++ [] from rfl]
      by_cases h0 : nm.isSome
      · simp only [socket_mk, name_mk, value_mk, h0, if_pos, dite_true, List.map_nil,
          List.flatten_nil, List.append_nil, dite_eq_ite, if_true]
        rw [List.take_of_length_le (by simp; omega)]
      · simp only [socket_mk, name_mk, value_mk, h0, List.map_nil,
          List.flatten_nil, List.append_nil, dite_eq_ite, if_false, Bool.false_eq_true]
        rw [List.take_of_length_le (by omega)]
  | case3 node res h hs r' next rest ih =>
    rw [matchLoop, if_neg h]
    cases node with
    | mk s nm v =>
      rw [socket_mk] at hs
      subst hs
      rw [show (Node.mk ([] : List (Char × Node V)) nm v).dfs =
          (if nm.isSome = true then [v] else []) ++ [] from rfl]
      by_cases h0 : nm.isSome
      · have hr' : r' = res ++ [v] := by
          simp +zetaDelta [name_mk, value_mk, h0]
        rw [hr'] at ih
        simp only [socket_mk, name_mk, value_mk, h0, dite_eq_ite, if_true, if_pos,
          List.map_cons, List.flatten_cons, List.append_nil]
        by_cases hnext : res.length + 1 < c.toNat
        · rw [ih (by simp; omega)]
          simp [List.append_assoc]
        · have hlen' : (res ++ [v]).length = c.toNat := by simp; omega
          have hstop : matchLoop (some c) next rest (res ++ [v]) = res ++ [v] := by
            rw [matchLoop, if_pos]
            rw [countReached_some_iff]
            refine ⟨by omega, ?_⟩
            rw [hlen']
            omega
          rw [hstop, List.take_left' hlen']
      · have hr' : r' = res := by
          simp +zetaDelta [name_mk, value_mk, h0]
        rw [hr'] at ih
        simp only [socket_mk, name_mk, value_mk, h0, dite_eq_ite, if_false,
          Bool.false_eq_true, List.map_cons, List.flatten_cons, List.append_nil]
        rw [ih hlen]
        simp [h0, List.append_assoc]
  | case4 node points res h c' child restS hs r' hge ih =>
    rw [matchLoop, if_neg h]
    cases node with
    | mk s nm v =>
      rw [socket_mk] at hs
      subst hs
      rw [show (Node.mk ((c', child) :: restS) nm v).dfs =
          (if nm.isSome = true then [v] else []) ++ (child.dfs ++ dfsRevL restS) from rfl]
      by_cases h0 : nm.isSome
      · have hr' : r' = res ++ [v] := by
          simp +zetaDelta [name_mk, value_mk, h0]
        rw [hr'] at ih
        simp only [socket_mk, name_mk, value_mk, h0, dite_eq_ite, if_true, if_pos, hge,
          ge_iff_le]
        by_cases hnext : res.length + 1 < c.toNat
        · rw [ih (by simp; omega)]
          simp [List.append_assoc, dfsRevL_eq_flatten, Function.comp_def]
        · have hlen' : (res ++ [v]).length = c.toNat := by simp; omega
          have hstop : matchLoop (some c) child
              ((restS.map (fun p => p.2)).reverse ++ points) (res ++ [v]) = res ++ [v] := by
            rw [matchLoop, if_pos]
            rw [countReached_some_iff]
            refine ⟨by omega, ?_⟩
            rw [hlen']
            omega
          rw [hstop]
          simp only [List.append_assoc, List.singleton_append]
          have hlen2 : res.length + 1 = c.toNat := by simpa using hlen'
          exact (take_cons_middle res v _ hlen2).symm
      · have hr' : r' = res := by
          simp +zetaDelta [name_mk, value_mk, h0]
        rw [hr'] at ih
        simp only [socket_mk, name_mk, value_mk, h0, dite_eq_ite, if_false,
          Bool.false_eq_true, hge, if_pos, ge_iff_le]
        rw [ih hlen]
        simp [h0, dfsRevL_eq_flatten, Function.comp_def, List.append_assoc]
  | case5 node points res h c' child restS hs r' hlt ih =>
    rw [matchLoop, if_neg h]
    cases node with
    | mk s nm v =>
      rw [socket_mk] at hs
      subst hs
      have hrest : restS = [] := by
        cases restS with
        | nil => rfl
        | cons a b => simp at hlt
      subst hrest
      rw [show (Node.mk ([(c', child)] : List (Char × Node V)) nm v).dfs =
          (if nm.isSome = true then [v] else []) ++ (child.dfs ++ dfsRevL []) from rfl]
      by_cases h0 : nm.isSome
      · have hr' : r' = res ++ [v] := by
          simp +zetaDelta [name_mk, value_mk, h0]
        rw [hr'] at ih
        simp only [socket_mk, name_mk, value_mk, h0, dite_eq_ite, if_true, if_pos,
          List.length_nil, ge_iff_le, show ¬ (0 + 1 ≥ 2) by omega, if_false]
        by_cases hnext : res.length + 1 < c.toNat
        · rw [ih (by simp; omega)]
          simp [List.append_assoc, show dfsRevL ([] : List (Char × Node V)) = [] from rfl]
        · have hlen' : (res ++ [v]).length = c.toNat := by simp; omega
          have hstop : matchLoop (some c) child points (res ++ [v]) = res ++ [v] := by
            rw [matchLoop, if_pos]
            rw [countReached_some_iff]
            refine ⟨by omega, ?_⟩
            rw [hlen']
            omega
          rw [hstop]
          simp only [List.append_assoc, List.singleton_append,
            show dfsRevL ([] : List (Char × Node V)) = [] from rfl, List.append_nil]
          have hlen2 : res.length + 1 = c.toNat := by simpa using hlen'
          exact (take_cons_middle res v _ hlen2).symm
      · have hr' : r' = res := by
          simp +zetaDelta [name_mk, value_mk, h0]
        rw [hr'] at ih
        simp only [socket_mk, name_mk, value_mk, h0, dite_eq_ite, if_false,
          Bool.false_eq_true, List.length_nil, ge_iff_le,
          show ¬ (0 + 1 ≥ 2) by omega]
        rw [ih hlen]
        simp [h0, show dfsRevL ([] : List (Char × Node V)) = [] from rfl,
          List.append_assoc]

theorem stringMk_data (k : String) : String.mk k.data = k := rfl

theorem stringMk_inj {p q : List Char} (h : String.mk p = String.mk q) : p = q := by
  injection h

theorem WF_lookup_iff {V : Type} {t : Trie V} (hwf : t.WF) (k : String) (v : V) :
    lookupTable t.table k = some v ↔ (k.data, some k, some v) ∈ t.rootNode.entryList := by
  obtain ⟨hsock, hlive, hnames, hperm, hnd⟩ := hwf
  constructor
  · intro hk
    have hmem : (k, some v) ∈ t.table.map (fun kv => (kv.1, some kv.2)) :=
      List.mem_map.mpr ⟨(k, v), mem_of_lookupTable hk, rfl⟩
    have hmem2 := hperm.mem_iff.mpr hmem
    obtain ⟨e, he, hge⟩ := List.mem_map.mp hmem2
    obtain ⟨p, nm, vv⟩ := e
    injection hge with h1 h2
    have hp : p = k.data := by
      have := stringMk_inj (q := k.data) (by rw [h1, stringMk_data])
      exact this
    subst hp
    have hn := hnames _ he
    simp only at hn
    rw [h1] at hn
    rw [← hn.1, ← h2]
    exact he
  · intro hmem
    have hmem2 : (k, some v) ∈ (t.rootNode.entryList.map (fun e => (String.mk e.1, e.2.2))) :=
      List.mem_map.mpr ⟨(k.data, some k, some v), hmem, by rw [stringMk_data]⟩
    have hmem3 := hperm.mem_iff.mp hmem2
    obtain ⟨kv, hkv, hge⟩ := List.mem_map.mp hmem3
    obtain ⟨k', v'⟩ := kv
    injection hge with h1 h2
    injection h2 with h2
    subst h1
    subst h2
    exact lookupTable_of_mem hkv hnd

theorem WF_walk_of_mem {V : Type} {t : Trie V} (hwf : t.WF) {k : String} {v : V}
    (hk : lookupTable t.table k = some v) :
    ∃ m, walkNode t.rootNode k.data = some m ∧ m.name = some k ∧ m.value = some v := by
  have hmem := (WF_lookup_iff hwf k v).mp hk
  obtain ⟨m, hm, h1, h2, _⟩ := walk_of_entry hwf.1 hmem
  exact ⟨m, hm, h1, h2⟩

theorem WF_key_ne_empty {V : Type} {t : Trie V} (hwf : t.WF) {k : String} {v : V}
    (hk : lookupTable t.table k = some v) : k.data ≠ [] := by
  intro hdat
  have hmem := (WF_lookup_iff hwf k v).mp hk
  rw [hdat] at hmem
  cases ht : t.rootSocket with
  | nil =>
    have : t.rootNode.entryList = [] := by
      rw [show t.rootNode.entryList = entryListL t.rootSocket from rfl, ht]
      rfl
    rw [this] at hmem
    simp at hmem
  | cons hd r =>
    have : t.rootNode.entryList = entryListL t.rootSocket := rfl
    rw [this] at hmem
    exact entryListL_path_ne_nil hmem rfl

theorem set_rootNode {V : Type} (t : Trie V) (k : String) (v : V) (hk : ¬ k = "") :
    (t.set k v).rootNode = insertNode t.rootNode k.data k v := by
  have hdat : k.data ≠ [] := by
    intro h
    exact hk (by cases k with | mk d => simp at h; simp [h])
  rw [Trie.set, if_neg hk]
  cases hd : k.data with
  | nil => exact absurd hd hdat
  | cons c cs =>
    show Node.mk (insertNode t.rootNode (c :: cs) k v).socket none none = _
    rw [show insertNode t.rootNode (c :: cs) k v =
        Node.mk (updateSocket t.rootNode.socket c
          (insertNode ((lookupSocket t.rootNode.socket c).getD (Node.mk [] none none)) cs k v))
          t.rootNode.name t.rootNode.value from rfl]
    rw [show t.rootNode.name = none from rfl, show t.rootNode.value = none from rfl]
    rfl

theorem subtree_entries_ne_nil {V : Type} {n m : Node V} {p : List Char}
    (hw : n.wsock = true) (hwalk : walkNode n p = some m)
    {e : List Char × Option String × Option V} (he : e ∈ n.entryList)
    (hp : pref p e.1 = true) : m.entryList ≠ [] := by
  intro hnil
  have heq := entry_filter_walk p hw hwalk
  rw [hnil] at heq
  simp only [List.map_nil] at heq
  have : e ∈ n.entryList.filter (fun e => pref p e.1) := List.mem_filter.mpr ⟨he, hp⟩
  rw [heq] at this
  simp at this

theorem two_keys_exists {V : Type} {s : List (Char × Node V)}
    (hnd : (s.map Prod.fst).Nodup) (hlen : s.length ≥ 2) (c0 : Char) :
    ∃ pr ∈ s, pr.1 ≠ c0 := by
  cases s with
  | nil => simp at hlen
  | cons a r =>
    cases r with
    | nil => simp at hlen
    | cons b r' =>
      by_cases hac : a.1 = c0
      · refine ⟨b, by simp, ?_⟩
        intro hbc
        simp only [List.map_cons, List.nodup_cons] at hnd
        exact hnd.1 (by simp [hac, ← hbc])
      · exact ⟨a, by simp, hac⟩

theorem WF_empty {V : Type} : (Trie.empty : Trie V).WF := by
  refine ⟨rfl, rfl, ?_, ?_, ?_⟩
  · intro e he
    simp [Trie.empty, Trie.rootNode, entryList_mk, entryListL] at he
  · simp [Trie.empty, Trie.rootNode, entryList_mk, entryListL]
  · simp [Trie.empty]

theorem filter_map_entries {V : Type} (l : List (List Char × Option String × Option V))
    (k : String) :
    (l.filter (fun e => decide (e.1 ≠ k.data))).map
        (fun e => (String.mk e.1, e.2.2)) =
      (l.map (fun e => (String.mk e.1, e.2.2))).filter (fun x => decide (x.1 ≠ k)) := by
  rw [List.filter_map]
  congr 1
  apply List.filter_congr
  intro e _
  simp only [Function.comp_apply, decide_eq_decide]
  constructor
  · intro h1
    intro h2
    apply h1
    exact stringMk_inj ((show String.mk e.1 = k from h2).trans (stringMk_data k).symm)
  · intro h1
    intro h2
    apply h1
    show String.mk e.1 = k
    rw [h2]

theorem filter_map_table {V : Type} (tbl : List (String × V)) (k : String) :
    (tbl.filter (fun kv => decide (kv.1 ≠ k))).map (fun kv => (kv.1, some kv.2)) =
      (tbl.map (fun kv => (kv.1, some kv.2))).filter
        (fun x : String × Option V => decide (x.1 ≠ k)) := by
  rw [List.filter_map]
  congr 1

theorem WF_of_filter {V : Type} {t t' : Trie V} (hwf : t.WF) (k : String)
    (hsock : t'.rootNode.wsock = true) (hlive : t'.rootNode.liveb = true)
    (hent : t'.rootNode.entryList =
      t.rootNode.entryList.filter (fun e => decide (e.1 ≠ k.data)))
    (htab : t'.table = eraseTable t.table k) : t'.WF := by
  obtain ⟨hsock0, hlive0, hnames, hperm, hnd⟩ := hwf
  refine ⟨hsock, hlive, ?_, ?_, ?_⟩
  · intro e he
    rw [hent] at he
    exact hnames _ (List.mem_of_mem_filter he)
  · rw [hent, htab, filter_map_entries, eraseTable_eq_filter _ _ hnd, filter_map_table]
    exact hperm.filter _
  · rw [htab]
    exact List.Sublist.nodup ((eraseTable_sublist t.table k).map Prod.fst) hnd

theorem filter_ne_nil_of_mem {α : Type} {l : List α} {P : α → Bool} {a : α}
    (ha : a ∈ l) (hPa : P a = true) : l.filter P ≠ [] := by
  intro h
  exact absurd (List.mem_filter.mpr ⟨ha, hPa⟩) (by rw [h]; simp)

theorem set_table {V : Type} (t : Trie V) (k : String) (v : V) (hk : ¬ k = "") :
    (t.set k v).table = updateTable t.table k v := by
  rw [Trie.set, if_neg hk]

theorem set_entries {V : Type} (t : Trie V) (k : String) (v : V) (hk : ¬ k = "")
    (hw : t.rootNode.wsock = true) :
    (t.set k v).rootNode.entryList.Perm
      ((k.data, some k, some v) ::
        t.rootNode.entryList.filter (fun e => decide (e.1 ≠ k.data))) := by
  rw [set_rootNode t k v hk]
  exact entries_insert k.data k v t.rootNode hw

theorem WF_set {V : Type} {t : Trie V} (hwf : t.WF) (k : String) (v : V) :
    (t.set k v).WF := by
  by_cases hk : k = ""
  · rw [Trie.set, if_pos hk]
    exact hwf
  · have hwsock : (t.set k v).rootNode.wsock = true := by
      rw [set_rootNode t k v hk]
      exact wsock_insert k.data k v t.rootNode hwf.1
    have hent := set_entries t k v hk hwf.1
    have hlive : (t.set k v).rootNode.liveb = true := by
      apply live_of_walk_entries _ hwsock
      intro p m hwalk hp
      have hex : ∃ e ∈ (t.set k v).rootNode.entryList, pref p e.1 = true := by
        by_cases hpk : pref p k.data = true
        · refine ⟨(k.data, some k, some v), ?_, hpk⟩
          exact hent.mem_iff.mpr (by simp)
        · have hoff : walkNode (t.set k v).rootNode p = walkNode t.rootNode p := by
            rw [set_rootNode t k v hk]
            exact walk_insert_off t.rootNode k.data p k v (by
              cases hpp : pref p k.data with
              | false => rfl
              | true => exact absurd hpp hpk)
          rw [hoff] at hwalk
          have hm := (liveb_walk hwf.2.1 hwalk).2 hp
          obtain ⟨e0, he0⟩ := List.exists_mem_of_ne_nil _ hm
          have hfil := entry_filter_walk p hwf.1 hwalk
          have : (p ++ e0.1, e0.2) ∈ t.rootNode.entryList.filter (fun e => pref p e.1) := by
            rw [hfil]
            exact List.mem_map.mpr ⟨e0, he0, rfl⟩
          have hmem := List.mem_of_mem_filter this
          have hpref : pref p (p ++ e0.1) = true := pref_append _ _
          refine ⟨(p ++ e0.1, e0.2), ?_, hpref⟩
          apply hent.mem_iff.mpr
          refine List.mem_cons_of_mem _ (List.mem_filter.mpr ⟨hmem, ?_⟩)
          simp only [decide_eq_true_eq, ne_eq]
          intro heq
          rw [heq] at hpref
          exact hpk hpref
      obtain ⟨e, he, hpe⟩ := hex
      exact subtree_entries_ne_nil hwsock hwalk he hpe
    obtain ⟨hsock0, hlive0, hnames, hperm, hnd⟩ := hwf
    refine ⟨hwsock, hlive, ?_, ?_, ?_⟩
    · intro e he
      rcases List.mem_cons.mp (hent.mem_iff.mp he) with heq | hmem
      · subst heq
        exact ⟨by rw [stringMk_data], by simp⟩
      · exact hnames _ (List.mem_of_mem_filter hmem)
    · refine (hent.map _).trans ?_
      rw [set_table t k v hk]
      refine List.Perm.trans ?_ ((updateTable_perm t.table k v hnd).map _).symm
      simp only [List.map_cons, stringMk_data]
      refine List.Perm.cons _ ?_
      rw [filter_map_entries, eraseTable_eq_filter _ _ hnd, filter_map_table]
      exact hperm.filter _
    · rw [set_table t k v hk]
      exact nodup_keys_updateTable t.table k v hnd

theorem clear_shape {V : Type} (s : List (Char × Node V)) (c : Char) (cs : List Char) :
    ∃ s', clearNode (Node.mk s none none) (c :: cs) = Node.mk s' none none := by
  cases hl : lookupSocket s c with
  | none => exact ⟨s, by simp [clearNode, socket_mk, hl]⟩
  | some child =>
    exact ⟨updateSocket s c (clearNode child cs), by
      simp [clearNode, socket_mk, name_mk, value_mk, hl]⟩

theorem delete_shape {V : Type} (s : List (Char × Node V)) (cs : List Char) (i : Nat) :
    ∃ s', deleteEdgeAt (Node.mk s none none) cs i = Node.mk s' none none := by
  cases cs with
  | nil => exact ⟨s, rfl⟩
  | cons c cs' =>
    cases i with
    | zero => exact ⟨eraseSocket s c, rfl⟩
    | succ i' =>
      cases hl : lookupSocket s c with
      | none => exact ⟨s, by simp [deleteEdgeAt, socket_mk, hl]⟩
      | some child =>
        exact ⟨updateSocket s c (deleteEdgeAt child cs' i'), by
          simp [deleteEdgeAt, socket_mk, name_mk, value_mk, hl]⟩

theorem rootNode_eq_of_shape {V : Type} {t' : Trie V} {s' : List (Char × Node V)}
    (h : t'.rootSocket = s') : t'.rootNode = Node.mk s' none none := by
  rw [Trie.rootNode, h]

theorem mem_remove_entries_exists {V : Type} {t : Trie V} (hwf : t.WF) {q : List Char}
    {mq : Node V} (hwq : walkNode t.rootNode q = some mq) (hne : mq.entryList ≠ []) :
    ∃ e ∈ t.rootNode.entryList, pref q e.1 = true := by
  obtain ⟨e0, he0⟩ := List.exists_mem_of_ne_nil _ hne
  have hfil := entry_filter_walk q hwf.1 hwq
  have hmem : (q ++ e0.1, e0.2) ∈ t.rootNode.entryList.filter (fun e => pref q e.1) := by
    rw [hfil]
    exact List.mem_map.mpr ⟨e0, he0, rfl⟩
  exact ⟨(q ++ e0.1, e0.2), List.mem_of_mem_filter hmem, pref_append _ _⟩

theorem remove_caseA {V : Type} {t : Trie V} {k : String} {v : V} {m : Node V} (hwf : t.WF)
    (hk : lookupTable t.table k = some v) (hwalk : walkNode t.rootNode k.data = some m)
    (hsk : m.socket.length ≠ 0) :
    (t.remove k).table = eraseTable t.table k ∧
    (t.remove k).rootNode.entryList =
      t.rootNode.entryList.filter (fun e => decide (e.1 ≠ k.data)) ∧
    (t.remove k).WF := by
  have hdat : k.data ≠ [] := WF_key_ne_empty hwf hk
  have hrm : t.remove k =
      ⟨(clearNode t.rootNode k.data).socket, eraseTable t.table k⟩ := by
    simp [Trie.remove, hk, hwalk, hsk]
  have hroot : (t.remove k).rootNode = clearNode t.rootNode k.data := by
    cases hd : k.data with
    | nil => exact absurd hd hdat
    | cons c cs =>
      obtain ⟨s', hs'⟩ := clear_shape t.rootSocket c cs
      have hclear : clearNode t.rootNode (c :: cs) = Node.mk s' none none := by
        rw [Trie.rootNode]
        exact hs'
      rw [hclear]
      apply rootNode_eq_of_shape
      rw [hrm]
      show (clearNode t.rootNode k.data).socket = s'
      rw [hd, hclear, socket_mk]
  have hent : (t.remove k).rootNode.entryList =
      t.rootNode.entryList.filter (fun e => decide (e.1 ≠ k.data)) := by
    rw [hroot]
    exact entries_clear k.data t.rootNode hwf.1
  have hwsock : (t.remove k).rootNode.wsock = true := by
    rw [hroot]
    exact wsock_clear k.data t.rootNode hwf.1
  have hlive : (t.remove k).rootNode.liveb = true := by
    apply live_of_walk_entries _ hwsock
    intro p m' hw' hp
    have hex : ∃ e ∈ (t.remove k).rootNode.entryList, pref p e.1 = true := by
      by_cases hpk : pref p k.data = true
      · obtain ⟨⟨c0, ch0⟩, hch⟩ := List.exists_mem_of_ne_nil m.socket (by
          intro h
          rw [h] at hsk
          exact hsk rfl)
        have hlc : lookupSocket m.socket c0 = some ch0 :=
          lookupSocket_of_mem hch ((wsock_iff m).mp (wsock_of_walk hwf.1 hwalk)).1
        have hwext : walkNode t.rootNode (k.data ++ [c0]) = some ch0 := by
          rw [walk_append, hwalk, Option.some_bind, walkNode_cons, hlc]
          simp [walkNode]
        have hch_ne : ch0.entryList ≠ [] := (liveb_walk hwf.2.1 hwext).2 (by simp)
        obtain ⟨e, hmem, hpe⟩ := mem_remove_entries_exists hwf hwext hch_ne
        refine ⟨e, ?_, pref_trans hpk (pref_trans (pref_append k.data [c0]) hpe)⟩
        rw [hent]
        refine List.mem_filter.mpr ⟨hmem, ?_⟩
        simp only [decide_eq_true_eq, ne_eq]
        intro heq
        have hle := pref_length_le hpe
        rw [heq] at hle
        simp at hle
      · have hps : (walkNode t.rootNode p).isSome = true := by
          have h2 := walk_clear_isSome k.data p t.rootNode
          rw [← hroot] at h2
          rw [hw'] at h2
          exact h2.symm
        obtain ⟨m'', hm''⟩ := Option.isSome_iff_exists.mp hps
        have hm2 := (liveb_walk hwf.2.1 hm'').2 hp
        obtain ⟨e, hmem, hpe⟩ := mem_remove_entries_exists hwf hm'' hm2
        refine ⟨e, ?_, hpe⟩
        rw [hent]
        refine List.mem_filter.mpr ⟨hmem, ?_⟩
        simp only [decide_eq_true_eq, ne_eq]
        intro heq
        rw [heq] at hpe
        exact hpk hpe
    obtain ⟨e, he, hpe⟩ := hex
    exact subtree_entries_ne_nil hwsock hw' he hpe
  exact ⟨by rw [hrm], hent, WF_of_filter hwf k hwsock hlive hent (by rw [hrm])⟩

theorem remove_caseB_reset {V : Type} {t : Trie V} {k : String} {v : V} {m : Node V}
    (hwf : t.WF) (hk : lookupTable t.table k = some v)
    (hwalk : walkNode t.rootNode k.data = some m) (hname : m.name = some k)
    (hvalue : m.value = some v) (hmnil : m.socket = [])
    (hno : ∀ j, j < k.data.length → ¬ anchorCond t.rootNode k.data j) :
    (t.remove k).table = eraseTable t.table k ∧
    (t.remove k).rootNode.entryList =
      t.rootNode.entryList.filter (fun e => decide (e.1 ≠ k.data)) ∧
    (t.remove k).WF := by
  have hfp : findPoint t.rootNode k.data 0 none = some none :=
    findPoint_no_anchor k.data t.rootNode 0 none (by rw [hwalk]; simp) hno
  have hrm : t.remove k = ⟨[], []⟩ := by
    simp [Trie.remove, hk, hwalk, hmnil, hfp, Trie.reset]
  have hchain : t.rootNode.entryList = [(k.data, some k, some v)] := by
    rw [← hname, ← hvalue]
    apply chain_entries k.data t.rootNode m hwalk (by rw [hname]; rfl) hmnil
    intro j hj mj hwj
    have hc := hno j hj
    constructor
    · cases hnm : mj.name with
      | none => rfl
      | some str => exact absurd ⟨mj, hwj, Or.inl (by rw [hnm]; rfl)⟩ hc
    · by_contra hlen2
      push_neg at hlen2
      exact hc ⟨mj, hwj, Or.inr (by omega)⟩
  have htab1 : t.table = [(k, v)] := by
    have hperm := hwf.2.2.2.1
    rw [hchain] at hperm
    simp only [List.map_cons, List.map_nil, stringMk_data] at hperm
    have heq : t.table.map (fun kv => (kv.1, some kv.2)) = [(k, some v)] :=
      List.perm_singleton.mp hperm.symm
    cases ht : t.table with
    | nil => rw [ht] at heq; simp at heq
    | cons kv r =>
      rw [ht] at heq
      simp only [List.map_cons, List.cons.injEq] at heq
      obtain ⟨h1, h2⟩ := heq
      have hr : r = [] := by
        cases r with
        | nil => rfl
        | cons a b => simp at h2
      subst hr
      obtain ⟨k', v'⟩ := kv
      simp only [Prod.mk.injEq, Option.some.injEq] at h1
      rw [h1.1, h1.2]
  have hent2 : (t.remove k).rootNode.entryList =
      t.rootNode.entryList.filter (fun e => decide (e.1 ≠ k.data)) := by
    rw [hrm, hchain]
    simp [Trie.rootNode, entryList_mk, entryListL]
  refine ⟨?_, hent2, ?_⟩
  · rw [hrm, htab1]
    simp [eraseTable]
  · rw [hrm]
    exact WF_empty

theorem take_succ_get {α : Type} (l : List α) (n : Nat) (h : n < l.length) :
    l.take (n + 1) = l.take n ++ [l.get ⟨n, h⟩] := by
  rw [List.take_succ]
  simp [List.getElem?_eq_getElem h]

theorem remove_caseB_anchor {V : Type} {t : Trie V} {k : String} {v : V} {m : Node V}
    {i : Nat} (hwf : t.WF) (hk : lookupTable t.table k = some v)
    (hwalk : walkNode t.rootNode k.data = some m) (hname : m.name = some k)
    (hvalue : m.value = some v) (hmnil : m.socket = []) (hi : i < k.data.length)
    (hci : anchorCond t.rootNode k.data i)
    (hmax : ∀ j', i < j' → j' < k.data.length → ¬ anchorCond t.rootNode k.data j') :
    (t.remove k).table = eraseTable t.table k ∧
    (t.remove k).rootNode.entryList =
      t.rootNode.entryList.filter (fun e => decide (e.1 ≠ k.data)) ∧
    (t.remove k).WF := by
  have hdat : k.data ≠ [] := WF_key_ne_empty hwf hk
  have hfp : findPoint t.rootNode k.data 0 none = some (some i) := by
    have := findPoint_anchor k.data i t.rootNode 0 none (by rw [hwalk]; simp) hi hci hmax
    simpa using this
  have hrm : t.remove k =
      ⟨(deleteEdgeAt t.rootNode k.data i).socket, eraseTable t.table k⟩ := by
    simp [Trie.remove, hk, hwalk, hmnil, hfp]
  have hroot : (t.remove k).rootNode = deleteEdgeAt t.rootNode k.data i := by
    obtain ⟨s', hs'⟩ := delete_shape t.rootSocket k.data i
    have hdel : deleteEdgeAt t.rootNode k.data i = Node.mk s' none none := by
      rw [Trie.rootNode]
      exact hs'
    rw [hdel]
    apply rootNode_eq_of_shape
    rw [hrm]
    show (deleteEdgeAt t.rootNode k.data i).socket = s'
    rw [hdel, socket_mk]
  -- node `a` just past the anchor edge and the chain below it
  have hsplit := walk_append t.rootNode (k.data.take (i + 1)) (k.data.drop (i + 1))
  rw [List.take_append_drop, hwalk] at hsplit
  obtain ⟨a, hwa⟩ : ∃ a, walkNode t.rootNode (k.data.take (i + 1)) = some a := by
    cases hwj : walkNode t.rootNode (k.data.take (i + 1)) with
    | none => rw [hwj] at hsplit; simp at hsplit
    | some a => exact ⟨a, rfl⟩
  rw [hwa, Option.some_bind] at hsplit
  have hwam : walkNode a (k.data.drop (i + 1)) = some m := hsplit.symm
  have hchain : a.entryList = [(k.data.drop (i + 1), some k, some v)] := by
    rw [← hname, ← hvalue]
    apply chain_entries _ _ m hwam (by rw [hname]; rfl) hmnil
    intro j hj mj hwj
    have hwroot : walkNode t.rootNode (k.data.take (i + 1 + j)) = some mj := by
      have h1 : k.data.take (i + 1 + j) =
          k.data.take (i + 1) ++ (k.data.drop (i + 1)).take j :=
        List.take_add k.data (i + 1) j
      rw [h1, walk_append, hwa, Option.some_bind, hwj]
    have hjlen : i + 1 + j < k.data.length := by
      have := hj
      simp only [List.length_drop] at this
      omega
    have hcnd := hmax (i + 1 + j) (by omega) hjlen
    constructor
    · cases hnm : mj.name with
      | none => rfl
      | some str => exact absurd ⟨mj, hwroot, Or.inl (by rw [hnm]; rfl)⟩ hcnd
    · by_contra hlen2
      push_neg at hlen2
      exact hcnd ⟨mj, hwroot, Or.inr (by omega)⟩
  have hfil1 : t.rootNode.entryList.filter (fun e => pref (k.data.take (i + 1)) e.1) =
      [(k.data, some k, some v)] := by
    rw [entry_filter_walk _ hwf.1 hwa, hchain]
    simp [List.take_append_drop]
  have hent : (t.remove k).rootNode.entryList =
      t.rootNode.entryList.filter (fun e => decide (e.1 ≠ k.data)) := by
    rw [hroot, entries_delete k.data i t.rootNode hwf.1 hi]
    apply List.filter_congr
    intro e he
    by_cases heq : e.1 = k.data
    · rw [heq]
      simp [pref_take]
    · have hnp : pref (k.data.take (i + 1)) e.1 = false := by
        cases hpv : pref (k.data.take (i + 1)) e.1 with
        | false => rfl
        | true =>
          have hin : e ∈ t.rootNode.entryList.filter
              (fun e => pref (k.data.take (i + 1)) e.1) :=
            List.mem_filter.mpr ⟨he, hpv⟩
          rw [hfil1] at hin
          simp only [List.mem_singleton] at hin
          exact absurd (by rw [hin]) heq
      simp [hnp, heq]
  have hwsock : (t.remove k).rootNode.wsock = true := by
    rw [hroot]
    exact wsock_delete k.data i t.rootNode hwf.1
  have hlive : (t.remove k).rootNode.liveb = true := by
    apply live_of_walk_entries _ hwsock
    intro p m' hw' hp
    have hdead : pref (k.data.take (i + 1)) p = false := by
      cases hpv : pref (k.data.take (i + 1)) p with
      | false => rfl
      | true =>
        have hnone := walk_delete_dead k.data i p t.rootNode hwf.1
          (by rw [hwa]; rfl) hi hpv
        rw [hroot, hnone] at hw'
        cases hw'
    have hps : (walkNode t.rootNode p).isSome = true := by
      have h2 := walk_delete_isSome k.data i p t.rootNode hwf.1 hdead
      rw [← hroot, hw'] at h2
      exact h2.symm
    obtain ⟨mo, hmo⟩ := Option.isSome_iff_exists.mp hps
    have hex : ∃ e ∈ t.rootNode.entryList,
        pref p e.1 = true ∧ (!(pref (k.data.take (i + 1)) e.1)) = true := by
      by_cases hsp : pref p (k.data.take i) = true
      · obtain ⟨anchor, hwan, hcond⟩ := hci
        rcases hcond with hterm | hbig
        · refine ⟨(k.data.take i, anchor.name, anchor.value),
            entry_of_walk hwan hterm, hsp, ?_⟩
          cases hpv : pref (k.data.take (i + 1)) (k.data.take i) with
          | false => rfl
          | true =>
            have hl := pref_length_le hpv
            rw [List.length_take, List.length_take] at hl
            omega
        · have htak : k.data.take (i + 1) = k.data.take i ++ [k.data.get ⟨i, hi⟩] :=
            take_succ_get k.data i hi
          have hanw : anchor.wsock = true := wsock_of_walk hwf.1 hwan
          obtain ⟨⟨c', ch'⟩, hmem', hne'⟩ :=
            two_keys_exists ((wsock_iff anchor).mp hanw).1 hbig (k.data.get ⟨i, hi⟩)
          have hwch : walkNode t.rootNode (k.data.take i ++ [c']) = some ch' := by
            rw [walk_append, hwan, Option.some_bind, walkNode_cons,
              lookupSocket_of_mem hmem' ((wsock_iff anchor).mp hanw).1]
            simp [walkNode]
          have hne2 : ch'.entryList ≠ [] := (liveb_walk hwf.2.1 hwch).2 (by simp)
          obtain ⟨e, hmem, hpe⟩ := mem_remove_entries_exists hwf hwch hne2
          refine ⟨e, hmem, pref_trans hsp (pref_trans (pref_append _ _) hpe), ?_⟩
          cases hpv : pref (k.data.take (i + 1)) e.1 with
          | false => rfl
          | true =>
            rw [htak] at hpv
            exact absurd (pref_snoc_inj hpv hpe) (fun h => hne' h.symm)
      · have hmo_ne := (liveb_walk hwf.2.1 hmo).2 hp
        obtain ⟨e, hmem, hpe⟩ := mem_remove_entries_exists hwf hmo hmo_ne
        refine ⟨e, hmem, hpe, ?_⟩
        cases hpv : pref (k.data.take (i + 1)) e.1 with
        | false => rfl
        | true =>
          exfalso
          rcases pref_comparable hpe hpv with hc1 | hc2
          · have hle := pref_length_le hc1
            rw [List.length_take] at hle
            by_cases hpl : p.length ≤ i
            · have hmin : p.length ⊓ (i + 1) = p.length := by omega
              have hx := pref_eq_take hc1
              rw [List.take_take, hmin] at hx
              exact hsp (by rw [hx]; exact pref_take_take hpl)
            · have hmin : p.length ⊓ (i + 1) = i + 1 := by omega
              have hx := pref_eq_take hc1
              rw [List.take_take, hmin] at hx
              rw [hx, pref_refl] at hdead
              cases hdead
          · rw [hc2] at hdead
            cases hdead
    obtain ⟨e, he, hpe, hse⟩ := hex
    refine subtree_entries_ne_nil hwsock hw' ?_ hpe
    rw [hroot, entries_delete k.data i t.rootNode hwf.1 hi]
    exact List.mem_filter.mpr ⟨he, hse⟩
  exact ⟨by rw [hrm], hent, WF_of_filter hwf k hwsock hlive hent (by rw [hrm])⟩

theorem remove_master {V : Type} {t : Trie V} {k : String} {v : V} (hwf : t.WF)
    (hk : lookupTable t.table k = some v) :
    (t.remove k).table = eraseTable t.table k ∧
    (t.remove k).rootNode.entryList =
      t.rootNode.entryList.filter (fun e => decide (e.1 ≠ k.data)) ∧
    (t.remove k).WF := by
  obtain ⟨m, hwalk, hname, hvalue⟩ := WF_walk_of_mem hwf hk
  by_cases hsk : m.socket.length ≠ 0
  · exact remove_caseA hwf hk hwalk hsk
  · have hmnil : m.socket = [] := by
      push_neg at hsk
      exact List.length_eq_zero.mp hsk
    by_cases hex : ∃ j, j < k.data.length ∧ anchorCond t.rootNode k.data j
    · obtain ⟨i, hi, hci, hmax⟩ := exists_greatest_below hex
      exact remove_caseB_anchor hwf hk hwalk hname hvalue hmnil hi hci hmax
    · push_neg at hex
      exact remove_caseB_reset hwf hk hwalk hname hvalue hmnil
        (fun j hj hc => hex j hj hc)

theorem remove_absent {V : Type} (t : Trie V) (k : String)
    (hk : lookupTable t.table k = none) : t.remove k = t := by
  rw [Trie.remove, hk]

theorem WF_remove {V : Type} {t : Trie V} (hwf : t.WF) (k : String) : (t.remove k).WF := by
  cases hk : lookupTable t.table k with
  | none => rw [remove_absent t k hk]; exact hwf
  | some v => exact (remove_master hwf hk).2.2

theorem WF_applyOp {V : Type} {t : Trie V} (hwf : t.WF) (op : TrieOp V) :
    (t.applyOp op).WF := by
  cases op with
  | set k v => exact WF_set hwf k v
  | remove k => exact WF_remove hwf k
  | reset => exact WF_empty

theorem WF_applyOps {V : Type} {t : Trie V} (hwf : t.WF) (ops : List (TrieOp V)) :
    (t.applyOps ops).WF := by
  induction ops generalizing t with
  | nil => exact hwf
  | cons op rest ih => exact ih (WF_applyOp hwf op)

theorem match_empty {V : Type} (t : Trie V) (c : Option Int) : t.match' "" c = [] := rfl

theorem match_perm_table {V : Type} {t : Trie V} (hwf : t.WF) (q : String) (hq : ¬ q = "") :
    (t.match' q none).Perm
      ((t.table.filter (fun kv => pref q.data kv.1.data)).map (fun kv => some kv.2)) := by
  rw [Trie.match', if_neg hq]
  cases hc : t.getClosestNode q with
  | none =>
    have hfil : t.table.filter (fun kv => pref q.data kv.1.data) = [] := by
      apply List.filter_eq_nil_iff.mpr
      rintro ⟨k0, v0⟩ hkv hpref
      have hlk : lookupTable t.table k0 = some v0 := lookupTable_of_mem hkv hwf.2.2.2.2
      obtain ⟨m, hm, _, _⟩ := WF_walk_of_mem hwf hlk
      obtain ⟨rest, hrest⟩ := (pref_iff _ _).mp (by simpa using hpref)
      rw [hrest, walk_append] at hm
      rw [Trie.getClosestNode] at hc
      rw [hc] at hm
      simp at hm
    rw [hfil]
    simp
  | some closest =>
    have hdfs : matchLoop none closest [] [] = closest.dfs := by
      rw [matchLoop_none_eq]
      simp
    rw [show (match some closest with
        | none => ([] : List (Option V))
        | some closestNode => matchLoop none closestNode [] []) =
        matchLoop none closest [] [] from rfl, hdfs]
    have hclosest : walkNode t.rootNode q.data = some closest := hc
    have hfil := entry_filter_walk q.data hwf.1 hclosest
    refine (dfs_perm_values closest).trans ?_
    have hmapval : closest.entryList.map (fun e => e.2.2) =
        (t.rootNode.entryList.filter (fun e => pref q.data e.1)).map
          (fun e => e.2.2) := by
      rw [hfil, List.map_map]
      rfl
    rw [hmapval]
    have hL1 : (t.rootNode.entryList.filter (fun e => pref q.data e.1)).map
        (fun e => e.2.2) =
        ((t.rootNode.entryList.map (fun e => (String.mk e.1, e.2.2))).filter
          (fun x => pref q.data x.1.data)).map Prod.snd := by
      rw [List.filter_map, List.map_map]
      rfl
    rw [hL1]
    have hL3 := (hwf.2.2.2.1.filter (fun x => pref q.data x.1.data)).map Prod.snd
    refine hL3.trans ?_
    rw [List.filter_map, List.map_map]
    rfl

theorem get_set {V : Type} (t : Trie V) (k : String) (v : V) (q : String) (hk : ¬ k = "") :
    (t.set k v).get q = if k = q then some v else t.get q := by
  rw [Trie.get, set_table t k v hk, lookupTable_update, Trie.get]

theorem set_empty_key {V : Type} (t : Trie V) (v : V) : t.set "" v = t := by
  rw [Trie.set, if_pos rfl]

/-- Value assigned by the last `set` call for a key in a call sequence. -/
def lastSetValue {V : Type} : List (String × V) → String → Option V
  | [], _ => none
  | (k0, v0) :: rest, k =>
    match lastSetValue rest k with
    | some v => some v
    | none => if k0 = k then some v0 else none

theorem get_applySets {V : Type} (ops : List (String × V)) (t : Trie V) (k : String)
    (hk : ¬ k = "") :
    (t.applySets ops).get k = Option.or (lastSetValue ops k) (t.get k) := by
  induction ops generalizing t with
  | nil => simp [Trie.applySets, lastSetValue]
  | cons kv rest ih =>
    obtain ⟨k0, v0⟩ := kv
    rw [show Trie.applySets t ((k0, v0) :: rest) = (t.set k0 v0).applySets rest from rfl]
    rw [ih (t.set k0 v0)]
    by_cases hk0 : k0 = ""
    · subst hk0
      rw [set_empty_key]
      rw [show lastSetValue (("", v0) :: rest) k =
          (match lastSetValue rest k with
           | some v => some v
           | none => if "" = k then some v0 else none) from rfl]
      cases hlv : lastSetValue rest k with
      | none =>
        have : ¬ ("" = k) := fun h => hk h.symm
        simp [this, Option.or]
      | some v => simp [Option.or]
    · rw [get_set t k0 v0 k hk0]
      rw [show lastSetValue ((k0, v0) :: rest) k =
          (match lastSetValue rest k with
           | some v => some v
           | none => if k0 = k then some v0 else none) from rfl]
      cases hlv : lastSetValue rest k with
      | none =>
        by_cases hke : k0 = k <;> simp [hke, Option.or]
      | some v => simp [Option.or]

theorem get_empty {V : Type} (q : String) : (Trie.empty : Trie V).get q = none := rfl

theorem get_applySets_empty_key {V : Type} (ops : List (String × V)) (t : Trie V) :
    (t.applySets ops).get "" = t.get "" := by
  induction ops generalizing t with
  | nil => rfl
  | cons kv rest ih =>
    obtain ⟨k0, v0⟩ := kv
    rw [show Trie.applySets t ((k0, v0) :: rest) = (t.set k0 v0).applySets rest from rfl]
    rw [ih (t.set k0 v0)]
    by_cases hk0 : k0 = ""
    · subst hk0
      rw [set_empty_key]
    · rw [get_set t k0 v0 "" hk0, if_neg hk0]

theorem keys_applySets_mem {V : Type} (ops : List (String × V)) (t : Trie V) (x : String) :
    x ∈ (t.applySets ops).table.map Prod.fst ↔
      x ∈ t.table.map Prod.fst ∨ (¬ x = "" ∧ x ∈ ops.map Prod.fst) := by
  induction ops generalizing t with
  | nil => simp [Trie.applySets]
  | cons kv rest ih =>
    obtain ⟨k0, v0⟩ := kv
    rw [show Trie.applySets t ((k0, v0) :: rest) = (t.set k0 v0).applySets rest from rfl]
    rw [ih (t.set k0 v0)]
    by_cases hk0 : k0 = ""
    · subst hk0
      rw [set_empty_key]
      simp only [List.map_cons, List.mem_cons]
      constructor
      · rintro (h | h)
        · exact Or.inl h
        · exact Or.inr ⟨h.1, Or.inr h.2⟩
      · rintro (h | ⟨hne, h | h⟩)
        · exact Or.inl h
        · exact absurd h hne
        · exact Or.inr ⟨hne, h⟩
    · rw [set_table t k0 v0 hk0, keys_updateTable]
      have hmemupd : x ∈ (if k0 ∈ t.table.map Prod.fst then t.table.map Prod.fst
          else t.table.map Prod.fst ++ [k0]) ↔
          x ∈ t.table.map Prod.fst ∨ x = k0 := by
        by_cases hin : k0 ∈ t.table.map Prod.fst
        · simp only [if_pos hin]
          constructor
          · exact Or.inl
          · rintro (h | h)
            · exact h
            · rw [h]; exact hin
        · simp [if_neg hin]
      rw [hmemupd]
      simp only [List.map_cons, List.mem_cons]
      constructor
      · rintro ((h | h) | h)
        · exact Or.inl h
        · subst h
          exact Or.inr ⟨hk0, Or.inl rfl⟩
        · exact Or.inr ⟨h.1, Or.inr h.2⟩
      · rintro (h | ⟨hne, h | h⟩)
        · exact Or.inl (Or.inl h)
        · exact Or.inl (Or.inr h)
        · exact Or.inr ⟨hne, h⟩

theorem nodup_keys_applySets {V : Type} (ops : List (String × V)) (t : Trie V)
    (hnd : (t.table.map Prod.fst).Nodup) : ((t.applySets ops).table.map Prod.fst).Nodup := by
  induction ops generalizing t with
  | nil => exact hnd
  | cons kv rest ih =>
    obtain ⟨k0, v0⟩ := kv
    rw [show Trie.applySets t ((k0, v0) :: rest) = (t.set k0 v0).applySets rest from rfl]
    refine ih (t.set k0 v0) ?_
    by_cases hk0 : k0 = ""
    · subst hk0
      rw [set_empty_key]
      exact hnd
    · rw [set_table t k0 v0 hk0]
      exact nodup_keys_updateTable t.table k0 v0 hnd

/-- Condition of claim C6: no position on the key's root path is an anchor
(the node before each character is non-terminal and has fewer than two
children). -/
def noAnchorOnPath {V : Type} (t : Trie V) (k : String) : Bool :=
  (List.range k.data.length).all (fun j =>
    match walkNode t.rootNode (k.data.take j) with
    | none => true
    | some mj => !mj.name.isSome && decide (mj.socket.length < 2))

/-- Reachability invariant of claim C10: every key in the index labels a
complete path of child edges from the root. -/
def reachIndex {V : Type} (t : Trie V) : Bool :=
  t.table.all (fun kv => (walkNode t.rootNode kv.1.data).isSome)

/-- Example store with a branching node, used by witnesses. -/
def exTrie : Trie Nat := (((Trie.empty.set "ab" 1).set "ac" 2).set "ad" 3).set "a" 9

/-- Example store with one key a prefix of the other, used by witnesses. -/
def exTrie2 : Trie Nat := (Trie.empty.set "ab" 1).set "abc" 2

/-- Example store for the C6 counterexample: the deleted key's path has no
anchor, yet its node has a child. -/
def c6Trie : Trie Nat := (Trie.empty.set "a" 1).set "ab" 2

theorem WF_applySets {V : Type} {t : Trie V} (hwf : t.WF) (ops : List (String × V)) :
    (t.applySets ops).WF := by
  induction ops generalizing t with
  | nil => exact hwf
  | cons kv rest ih =>
    obtain ⟨k, v⟩ := kv
    exact ih (WF_set hwf k v)

/-- C8: calling `set` with the empty (falsy) key leaves the store completely
unchanged — no node is created and no index entry is written — and calling
`match` with the empty (falsy) query returns the empty sequence without
touching the store.  Both are total functions of the state, so neither
signals an error. -/
theorem claim_C8_empty_key_noop {V : Type} (t : Trie V) (v : V) (c : Option Int) :
    t.set "" v = t ∧ t.match' "" c = [] :=
  ⟨set_empty_key t v, match_empty t c⟩

/-- C2: after every sequence of public mutating operations starting from a
fresh store (queries such as `get` and `match` leave the state untouched),
the flat index is exactly the set of terminal nodes: the multiset of
terminal entries of the tree, keyed by their full paths, coincides with the
multiset of index entries, every terminal entry is labelled by its own full
path and carries a value, and the index keys are duplicate-free — the index
and the terminal nodes never disagree. -/
theorem claim_C2_index_consistency {V : Type} (ops : List (TrieOp V)) :
    ((((Trie.empty : Trie V).applyOps ops)).rootNode.entryList.map
        (fun e => (String.mk e.1, e.2.2))).Perm
      (((Trie.empty : Trie V).applyOps ops).table.map (fun kv => (kv.1, some kv.2))) ∧
    (∀ e ∈ ((Trie.empty : Trie V).applyOps ops).rootNode.entryList,
      e.2.1 = some (String.mk e.1) ∧ (e.2.2).isSome = true) ∧
    (((Trie.empty : Trie V).applyOps ops).table.map Prod.fst).Nodup := by
  have h := WF_applyOps (WF_empty (V := V)) ops
  exact ⟨h.2.2.2.1, h.2.2.1, h.2.2.2.2⟩

/-- C1: on a well-formed store (every API-reachable store is, by
`WF_applyOps`), a nonempty query's `match` result consists, up to order, of
exactly the values of the stored keys that have the query as a prefix —
every such value appears and no value of a non-extending key does — and a
match of the empty query returns the empty sequence for every count. -/
theorem claim_C1_match_prefix {V : Type} (t : Trie V) (q : String) (hwf : t.WF)
    (hq : ¬ q = "") :
    (t.match' q none).Perm
      ((t.table.filter (fun kv => pref q.data kv.1.data)).map (fun kv => some kv.2)) ∧
    (∀ c, t.match' "" c = []) :=
  ⟨match_perm_table hwf q hq, fun c => match_empty t c⟩

theorem claim_C1_witness :
    exTrie.WF ∧ ¬ ("a" : String) = "" ∧
    (( exTrie.match' "a" none).Perm
        ((exTrie.table.filter (fun kv => pref ("a" : String).data kv.1.data)).map
          (fun kv => some kv.2)) ∧
      (∀ c, exTrie.match' "" c = [])) :=
  ⟨by decide, by decide, claim_C1_match_prefix exTrie "a" (by decide) (by decide)⟩

/-- C7: for a fixed store state (hence a fixed sequence of prior
insertions) and a nonempty query whose path exists, the `match` result is
exactly `Node.dfs` of the reached node — a deterministic sequence defined
by: the node's own value first, then the entire subtree of its first child
(in child-insertion order), then the remaining siblings' subtrees in
reverse insertion order (they are pushed onto the pending stack first to
last and popped last in, first out).  No lexicographic sorting takes
place. -/
theorem claim_C7_match_order {V : Type} (t : Trie V) (q : String) (m : Node V)
    (hq : ¬ q = "") (hm : t.getClosestNode q = some m) :
    t.match' q none = m.dfs := by
  rw [Trie.match', if_neg hq, hm]
  rw [show (match some m with
      | none => ([] : List (Option V))
      | some closestNode => matchLoop none closestNode [] []) =
      matchLoop none m [] [] from rfl]
  rw [matchLoop_none_eq]
  simp

theorem claim_C7_witness :
    (¬ ("a" : String) = "" ∧
      exTrie.getClosestNode "a" =
        some (Node.mk [('b', Node.mk [] (some "ab") (some 1)),
                       ('c', Node.mk [] (some "ac") (some 2)),
                       ('d', Node.mk [] (some "ad") (some 3))] (some "a") (some 9))) ∧
    exTrie.match' "a" none =
      (Node.mk [('b', Node.mk [] (some "ab") (some 1)),
                ('c', Node.mk [] (some "ac") (some 2)),
                ('d', Node.mk [] (some "ad") (some 3))] (some "a") (some 9)).dfs :=
  ⟨⟨by decide, by rfl⟩,
    claim_C7_match_order exTrie "a"
      (Node.mk [('b', Node.mk [] (some "ab") (some 1)),
                ('c', Node.mk [] (some "ac") (some 2)),
                ('d', Node.mk [] (some "ad") (some 3))] (some "a") (some 9))
      (by decide) (by rfl)⟩

/-- C4: after any sequence of `set` calls on a fresh store, `get` of a
nonempty key returns exactly the value of the last `set` performed for that
key (`none` when the key was never set), `get` of the empty key returns
`none` (a `set` of the empty key is ignored, claim C8, so the empty key is
never a stored key), and the number of terminal entries in the tree equals
the number of index entries, which equals the number of distinct nonempty
keys set. -/
theorem claim_C4_get_last_set {V : Type} [DecidableEq V] (ops : List (String × V))
    (k : String) (hk : ¬ k = "") :
    ((Trie.empty : Trie V).applySets ops).get k = lastSetValue ops k ∧
    ((Trie.empty : Trie V).applySets ops).get "" = none ∧
    ((Trie.empty : Trie V).applySets ops).rootNode.entryList.length =
      ((Trie.empty : Trie V).applySets ops).table.length ∧
    ((Trie.empty : Trie V).applySets ops).table.length =
      ((ops.map Prod.fst).filter (fun x => decide (¬ x = ""))).toFinset.card := by
  refine ⟨?_, ?_, ?_, ?_⟩
  · rw [get_applySets ops Trie.empty k hk, get_empty]
    cases lastSetValue ops k <;> rfl
  · rw [get_applySets_empty_key, get_empty]
  · have hwf := WF_applySets (WF_empty (V := V)) ops
    have hperm := hwf.2.2.2.1
    have := hperm.length_eq
    simpa using this
  · have hnd : (((Trie.empty : Trie V).applySets ops).table.map Prod.fst).Nodup :=
      nodup_keys_applySets ops Trie.empty (by simp [Trie.empty])
    have hlen : ((Trie.empty : Trie V).applySets ops).table.length =
        (((Trie.empty : Trie V).applySets ops).table.map Prod.fst).length := by
      simp
    rw [hlen, ← List.toFinset_card_of_nodup hnd]
    congr 1
    apply Finset.ext
    intro x
    simp only [List.mem_toFinset]
    rw [keys_applySets_mem ops Trie.empty x, List.mem_filter]
    constructor
    · rintro (h | ⟨hne, hmem⟩)
      · simp [Trie.empty] at h
      · exact ⟨hmem, by simpa using hne⟩
    · rintro ⟨hmem, hne⟩
      exact Or.inr ⟨by simpa using hne, hmem⟩

theorem claim_C4_witness :
    ¬ ("a" : String) = "" ∧
    ((Trie.empty.applySets [("a", (1 : Nat)), ("b", 2), ("a", 3)]).get "a" =
        lastSetValue [("a", (1 : Nat)), ("b", 2), ("a", 3)] "a" ∧
      (Trie.empty.applySets [("a", (1 : Nat)), ("b", 2), ("a", 3)]).get "" = none ∧
      (Trie.empty.applySets
          [("a", (1 : Nat)), ("b", 2), ("a", 3)]).rootNode.entryList.length =
        (Trie.empty.applySets [("a", (1 : Nat)), ("b", 2), ("a", 3)]).table.length ∧
      (Trie.empty.applySets [("a", (1 : Nat)), ("b", 2), ("a", 3)]).table.length =
        ((([("a", (1 : Nat)), ("b", 2), ("a", 3)] :
            List (String × Nat)).map Prod.fst).filter
          (fun x => decide (¬ x = ""))).toFinset.card) :=
  ⟨by decide, claim_C4_get_last_set [("a", (1 : Nat)), ("b", 2), ("a", 3)] "a" (by decide)⟩

/-- C5 counterexample: with the provided limit 0 — a legal integer limit,
but falsy in JavaScript — the loop guard `count && result.length >= count`
never fires, so `match("a", 0)` on the store {"a" ↦ 1} returns one value
instead of at most 0. -/
theorem claim_C5_counterexample :
    ¬ (( Trie.match' (Trie.empty.set "a" (1 : Nat)) "a" (some 0)).length ≤ 0) := by
  have h1 : (Trie.empty.set "a" (1 : Nat)).getClosestNode "a" =
      some (Node.mk [] (some "a") (some 1)) := rfl
  have h : Trie.match' (Trie.empty.set "a" (1 : Nat)) "a" (some 0) = [some 1] := by
    rw [Trie.match', if_neg (show ¬ ("a" : String) = "" by decide), h1]
    show matchLoop (some 0) (Node.mk [] (some "a") (some 1)) [] [] = [some 1]
    rw [matchLoop]
    simp [countReached, socket_mk, name_mk, value_mk]
  rw [h]
  simp

/-- C5 amended: for every provided positive limit, `match(query, limit)`
returns exactly the first `limit` values of the unlimited result — an
initial segment, hence at most `limit` values, and the traversal stops as
soon as the accumulated count reaches the limit.  The original claim is
restricted to positive limits: for limit 0 the JavaScript guard
`count && result.length >= count` treats the count as absent
(`claim_C5_counterexample`). -/
theorem claim_C5_limit_take {V : Type} (t : Trie V) (q : String) (c : Int)
    (hc : 0 < c) :
    t.match' q (some c) = (t.match' q none).take c.toNat ∧
    (t.match' q (some c)).length ≤ c.toNat := by
  have hmain : t.match' q (some c) = (t.match' q none).take c.toNat := by
    by_cases hq : q = ""
    · subst hq
      rw [match_empty, match_empty]
      simp
    · rw [Trie.match', Trie.match', if_neg hq, if_neg hq]
      cases hm : t.getClosestNode q with
      | none => simp
      | some m =>
        rw [show (match some m with
            | none => ([] : List (Option V))
            | some closestNode => matchLoop (some c) closestNode [] []) =
            matchLoop (some c) m [] [] from rfl]
        rw [show (match some m with
            | none => ([] : List (Option V))
            | some closestNode => matchLoop none closestNode [] []) =
            matchLoop none m [] [] from rfl]
        rw [matchLoop_none_eq, matchLoop_take c hc m [] []
          (by simp only [List.length_nil]; omega)]
  refine ⟨hmain, ?_⟩
  rw [hmain]
  exact List.length_take_le _ _

theorem claim_C5_witness :
    (0 : Int) < 2 ∧
    ( exTrie.match' "a" (some 2) = ( exTrie.match' "a" none).take (2 : Int).toNat ∧
      ( exTrie.match' "a" (some 2)).length ≤ (2 : Int).toNat) :=
  ⟨by decide, claim_C5_limit_take exTrie "a" 2 (by decide)⟩

/-- C9: deleting a key that is absent from the index leaves the store
completely unchanged (the operation is total, so no error is signalled),
and consequently deletion is idempotent: of two consecutive deletes of the
same key, the second is always a no-op.  Idempotence is stated for stores
whose index keys are duplicate-free, which every JavaScript object map
satisfies by construction and every API-reachable state satisfies
(`WF_applyOps`). -/
theorem claim_C9_absent_delete_noop {V : Type} (t : Trie V) (k : String)
    (hnd : (t.table.map Prod.fst).Nodup) :
    (t.get k = none → t.remove k = t) ∧ (t.remove k).remove k = t.remove k := by
  constructor
  · intro hk
    exact remove_absent t k hk
  · cases hk : lookupTable t.table k with
    | none =>
      rw [remove_absent t k hk, remove_absent t k hk]
    | some v =>
      cases hw : walkNode t.rootNode k.data with
      | none =>
        have hid : t.remove k = t := by
          simp [Trie.remove, hk, hw]
        rw [hid, hid]
      | some m =>
        by_cases hsk : m.socket.length ≠ 0
        · have ht' : (t.remove k).table = eraseTable t.table k := by
            simp [Trie.remove, hk, hw, hsk]
          apply remove_absent
          rw [ht', lookupTable_erase t.table k k hnd, if_pos rfl]
        · cases hfp : findPoint t.rootNode k.data 0 none with
          | none =>
            have hid : t.remove k = t := by
              simp [Trie.remove, hk, hw, hsk, hfp]
            rw [hid, hid]
          | some pt =>
            cases pt with
            | none =>
              have hrs : t.remove k = Trie.reset t := by
                simp [Trie.remove, hk, hw, hsk, hfp]
              rw [hrs]
              exact remove_absent _ k rfl
            | some i =>
              have ht' : (t.remove k).table = eraseTable t.table k := by
                simp [Trie.remove, hk, hw, hsk, hfp]
              apply remove_absent
              rw [ht', lookupTable_erase t.table k k hnd, if_pos rfl]

theorem claim_C9_witness :
    ((exTrie2.table.map Prod.fst).Nodup) ∧
    ((exTrie2.get "ab" = none → exTrie2.remove "ab" = exTrie2) ∧
      (exTrie2.remove "ab").remove "ab" = exTrie2.remove "ab") :=
  ⟨by decide, claim_C9_absent_delete_noop exTrie2 "ab" (by decide)⟩

/-- C10: under the reachability invariant `reachIndex` — every key in the
index labels a complete path of child edges from the root, which holds on
every API-reachable state by the index-consistency invariant — the early
`return` of the pruning re-walk is unreachable for an indexed key: the
anchor search `findPoint` never reports a missing edge, and a delete of an
indexed key never abandons the operation with the index entry still in
place (afterwards the key is gone from the index).  Duplicate-free index
keys, automatic for a JavaScript object, are assumed. -/
theorem claim_C10_rewalk_complete {V : Type} (t : Trie V) (k : String) (v : V)
    (hreach : reachIndex t = true) (hnd : (t.table.map Prod.fst).Nodup)
    (hk : lookupTable t.table k = some v) :
    findPoint t.rootNode k.data 0 none ≠ none ∧
    lookupTable (t.remove k).table k = none := by
  have hwalk : walkNode t.rootNode k.data ≠ none := by
    have hmem := mem_of_lookupTable hk
    have hsome := List.all_eq_true.mp hreach _ hmem
    intro hn
    rw [hn] at hsome
    simp at hsome
  have hfp_ne : findPoint t.rootNode k.data 0 none ≠ none := by
    intro hfp
    exact hwalk ((findPoint_none_iff k.data t.rootNode 0 none).mp hfp)
  refine ⟨hfp_ne, ?_⟩
  cases hw : walkNode t.rootNode k.data with
  | none => exact absurd hw hwalk
  | some m =>
    by_cases hsk : m.socket.length ≠ 0
    · have ht' : (t.remove k).table = eraseTable t.table k := by
        simp [Trie.remove, hk, hw, hsk]
      rw [ht', lookupTable_erase t.table k k hnd, if_pos rfl]
    · cases hfp : findPoint t.rootNode k.data 0 none with
      | none => exact absurd hfp hfp_ne
      | some pt =>
        cases pt with
        | none =>
          have hrs : t.remove k = Trie.reset t := by
            simp [Trie.remove, hk, hw, hsk, hfp]
          rw [hrs]
          rfl
        | some i =>
          have ht' : (t.remove k).table = eraseTable t.table k := by
            simp [Trie.remove, hk, hw, hsk, hfp]
          rw [ht', lookupTable_erase t.table k k hnd, if_pos rfl]

theorem claim_C10_witness :
    (reachIndex exTrie2 = true ∧ ((exTrie2.table.map Prod.fst).Nodup) ∧
      lookupTable exTrie2.table "ab" = some 1) ∧
    (findPoint exTrie2.rootNode ("ab" : String).data 0 none ≠ none ∧
      lookupTable (exTrie2.remove "ab").table "ab" = none) :=
  ⟨⟨by decide, by decide, by decide⟩,
    claim_C10_rewalk_complete exTrie2 "ab" 1 (by decide) (by decide) (by decide)⟩

/-- C6 counterexample: in the store {"a" ↦ 1, "ab" ↦ 2} the stored key "a"
satisfies the claim's precondition — its entire root path (only the root
itself precedes its single character) contains no terminal node and no node
with two or more children — yet deleting "a" does not reset the store to
the empty state: the code first checks that the key's node still has
children and takes the field-clearing case, so "ab" survives with its value
and both maps stay nonempty. -/
theorem claim_C6_counterexample :
    noAnchorOnPath c6Trie "a" = true ∧
    c6Trie.get "a" = some 1 ∧
    (c6Trie.remove "a").table ≠ [] ∧
    (c6Trie.remove "a").rootSocket.isEmpty = false ∧
    (c6Trie.remove "a").get "ab" = some 2 := by
  refine ⟨by decide, by decide, ?_, by decide, by decide⟩
  decide

/-- C6 amended: with the missing precondition added — the deleted key's own
node is childless (a true leaf) — the no-anchor condition does make `remove`
reset the whole store to the initial empty state: both the root children map
and the index come back empty, identical to a freshly constructed store.
The original claim omits the leaf requirement; when the node still has
children the children-count check intercepts before the anchor re-walk
(`claim_C6_counterexample`). -/
theorem claim_C6_reset_when_no_anchor {V : Type} (t : Trie V) (k : String) (v : V)
    (hk : lookupTable t.table k = some v) (m : Node V)
    (hm : walkNode t.rootNode k.data = some m) (hleaf : m.socket = [])
    (hno : noAnchorOnPath t k = true) :
    t.remove k = Trie.empty := by
  have hno' : ∀ j, j < k.data.length → ¬ anchorCond t.rootNode k.data j := by
    intro j hj hc
    obtain ⟨mj, hwj, hcond⟩ := hc
    have hall := List.all_eq_true.mp hno j (List.mem_range.mpr hj)
    simp only [hwj] at hall
    simp only [Bool.and_eq_true, Bool.not_eq_true', decide_eq_true_eq] at hall
    rcases hcond with hterm | hbig
    · rw [hall.1] at hterm
      exact Bool.false_ne_true hterm
    · omega
  have hfp : findPoint t.rootNode k.data 0 none = some none :=
    findPoint_no_anchor k.data t.rootNode 0 none (by rw [hm]; simp) hno'
  have hsk : ¬ m.socket.length ≠ 0 := by
    rw [hleaf]
    simp
  have hrs : t.remove k = Trie.reset t := by
    simp [Trie.remove, hk, hm, hsk, hfp]
  rw [hrs]
  rfl

theorem claim_C6_witness :
    (lookupTable (Trie.empty.set "ab" (5 : Nat)).table "ab" = some 5 ∧
      walkNode (Trie.empty.set "ab" (5 : Nat)).rootNode ("ab" : String).data =
        some (Node.mk [] (some "ab") (some 5)) ∧
      noAnchorOnPath (Trie.empty.set "ab" (5 : Nat)) "ab" = true) ∧
    (Trie.empty.set "ab" (5 : Nat)).remove "ab" = Trie.empty :=
  ⟨⟨by decide, by rfl, by decide⟩,
    claim_C6_reset_when_no_anchor (Trie.empty.set "ab" (5 : Nat)) "ab" 5 (by decide)
      (Node.mk [] (some "ab") (some 5)) (by rfl) rfl (by decide)⟩

/-- C3: on a well-formed store, deleting a stored key k makes `get k`
absent while `get` of every other key is unchanged; the terminal entries of
the tree afterwards are exactly the original ones minus k's own entry — so
k's value disappears from every match result and no other value does, and
no node on the path of a remaining stored key is removed (each remaining
key's entry, hence its full path, survives verbatim) — the result is again
well-formed, whose liveness conjunct says the pruning is exact (no subtree
without a terminal entry, i.e. no dead node, is left behind); and for every
nonempty query the new match result consists, up to order, of exactly the
values of the remaining keys that extend the query. -/
theorem claim_C3_delete_exact {V : Type} (t : Trie V) (k : String) (v : V)
    (hwf : t.WF) (hk : t.get k = some v) :
    (t.remove k).get k = none ∧
    (∀ q, ¬ q = k → (t.remove k).get q = t.get q) ∧
    (t.remove k).rootNode.entryList =
      t.rootNode.entryList.filter (fun e => decide (e.1 ≠ k.data)) ∧
    (t.remove k).WF ∧
    (∀ q, ¬ q = "" → ((t.remove k).match' q none).Perm
      ((t.table.filter (fun kv => pref q.data kv.1.data && decide (kv.1 ≠ k))).map
        (fun kv => some kv.2))) := by
  have hk' : lookupTable t.table k = some v := hk
  obtain ⟨htab, hent, hwf'⟩ := remove_master hwf hk'
  have hnd := hwf.2.2.2.2
  refine ⟨?_, ?_, hent, hwf', ?_⟩
  · show lookupTable (t.remove k).table k = none
    rw [htab, lookupTable_erase t.table k k hnd, if_pos rfl]
  · intro q hq
    show lookupTable (t.remove k).table q = lookupTable t.table q
    rw [htab, lookupTable_erase t.table k q hnd, if_neg (fun h => hq h.symm)]
  · intro q hq
    have hperm := match_perm_table hwf' q hq
    refine hperm.trans ?_
    rw [htab, eraseTable_eq_filter t.table k hnd, List.filter_filter]

theorem claim_C3_witness :
    (exTrie2.WF ∧ exTrie2.get "ab" = some 1) ∧
    ((exTrie2.remove "ab").get "ab" = none ∧
      (exTrie2.remove "ab").get "abc" = exTrie2.get "abc" ∧
      (exTrie2.remove "ab").rootNode.entryList =
        exTrie2.rootNode.entryList.filter
          (fun e => decide (e.1 ≠ ("ab" : String).data)) ∧
      (exTrie2.remove "ab").WF ∧
      ( Trie.match' (exTrie2.remove "ab") "a" none).Perm
        ((exTrie2.table.filter
            (fun kv => pref ("a" : String).data kv.1.data && decide (kv.1 ≠ "ab"))).map
          (fun kv => some kv.2))) := by
  have h := claim_C3_delete_exact exTrie2 "ab" 1 (by decide) (by decide)
  exact ⟨⟨by decide, by decide⟩, h.1, h.2.1 "abc" (by decide), h.2.2.1, h.2.2.2.1,
    h.2.2.2.2 "a" (by decide)⟩
